import Mathlib

/-!
# RTP (random tree planner): a shallow embedding of `src/src/RTP.cpp`

The planner grows a tree of `Motion`s rooted at the start configurations.
The embedding follows the C++ statement by statement.

* A `Motion *` is the position of the node in the order of `nn_->add` calls,
  so the tree `nn_` is the list of nodes in insertion order and a parent
  pointer is an `Option Nat` (`none` is `nullptr`).
* A `double` is an `ExtDist D`: `+infinity`, NaN, or an element of a linearly
  ordered type `D`, which holds the doubles below `+infinity`. The comparison
  `<` of doubles is `ExtDist.lt`; it is false as soon as one side is NaN.
* The external collaborators that are functions of their arguments
  (`nn_->nearest`, `si_->checkMotion`, `goal->isSatisfied`) are fields of `Env`.
  The ones that change from call to call (`rng_.uniform01`, `canSample`,
  `sampleGoal`, `sampleUniform`) are supplied per loop iteration in a `Tick`.
* `while (!ptc)`: the list of ticks handed to `solve` holds one entry for
  every poll of `ptc` that answers `false`; the poll after the last entry
  answers `true`.
* Every call to a collaborator is appended to a chronological `trace`.
* Dereferencing a pointer that is not in the tree, or a parent chain that
  does not end, yields `none`: the C++ has no defined result there.
-/

namespace RTP

/-- Modelled from the spec: the class `Motion` is declared in `RTP.h`, which is not among
the sources. A Motion is a configuration plus a reference to its parent, none for a
root; `new Motion(si_)` yields a Motion without parent. -/
structure Motion (σ : Type) where
  state : σ
  parent : Option Nat
  deriving DecidableEq, Repr

/-- Value of a `double`, such as `dist` and `approxdif`: `+infinity`, NaN, or a value
`fin d` below `+infinity`. -/
inductive ExtDist (D : Type) where
  | infinity : ExtDist D
  | fin (d : D) : ExtDist D
  | nan : ExtDist D
  deriving DecidableEq, Repr

/-- The comparison `a < b` of two doubles, as in `dist < approxdif` of line 159: false
when a side is NaN, and nothing is above `+infinity`. -/
def ExtDist.lt {D : Type} [LinearOrder D] : ExtDist D → ExtDist D → Bool
  | .fin a, .fin b => decide (a < b)
  | .fin _, .infinity => true
  | _, _ => false

/-- The value `a` is `b` unchanged or strictly below it. -/
def ExtDist.le {D : Type} [LinearOrder D] (a b : ExtDist D) : Prop :=
  a = b ∨ ExtDist.lt a b = true

/-- Return value of `solve`: `INVALID_START`, or the pair `{solved, approximate}` of line 202. -/
inductive PlannerStatus where
  | INVALID_START : PlannerStatus
  | result (solved approximate : Bool) : PlannerStatus
  deriving DecidableEq, Repr

/-- Collaborators that are functions of their arguments. -/
structure Env (σ D : Type) where
  /-- The outcome of `goal_s != nullptr` (line 71/102). -/
  goalSampleable : Bool
  /-- The field `goalBias_`. -/
  goalBias : D
  /-- The pointer `nn_->nearest(rmotion)` for the current tree and query state. -/
  nearest : List (Motion σ) → σ → Nat
  /-- The call `si_->checkMotion(from, to)`. -/
  checkMotion : σ → σ → Bool
  /-- The call `goal->isSatisfied(state, &dist)`: the flag and the double written to `dist`. -/
  isSatisfied : σ → Bool × ExtDist D

/-- What the stateful collaborators answer in one loop iteration, if they are asked. -/
structure Tick (σ D : Type) where
  uniform01 : D
  canSample : Bool
  sampleGoal : σ
  sampleUniform : σ

/-- One call to a collaborator, with what it returned. -/
inductive Event (σ D : Type) where
  | ptc (stop : Bool) : Event σ D
  | uniform01 (u : D) : Event σ D
  | canSample (b : Bool) : Event σ D
  | sampleGoal (s : σ) : Event σ D
  | sampleUniform (s : σ) : Event σ D
  | nearest (query : σ) (found : Nat) : Event σ D
  | checkMotion (a b : σ) (valid : Bool) : Event σ D
  | isSatisfied (s : σ) (sat : Bool) (dist : ExtDist D) : Event σ D
  deriving DecidableEq, Repr

/-- The members of the planner object that `solve`, `clear` and `getPlannerData` read
and write: the tree `nn_` (a null `nn_` holds no Motion and is the empty list),
`lastGoalMotion_`, and whether `sampler_` is allocated. -/
structure Planner (σ : Type) where
  nn : List (Motion σ)
  lastGoalMotion : Option Nat
  sampler : Bool
  deriving DecidableEq, Repr

/-- The locals of `solve` that live across loop iterations, the tree and the trace. -/
structure LoopState (σ D : Type) where
  nn : List (Motion σ)
  solution : Option Nat
  approxsol : Option Nat
  approxdif : ExtDist D
  trace : List (Event σ D)
  deriving DecidableEq, Repr

/-- The arguments of `pdef_->addSolutionPath(path, approximate, approxdif, name)`. -/
structure SolutionPath (σ D : Type) where
  path : List σ
  approximate : Bool
  difference : ExtDist D
  deriving DecidableEq, Repr

/-- What a call of `solve` leaves behind. -/
structure Outcome (σ D : Type) where
  status : PlannerStatus
  planner : Planner σ
  registered : Option (SolutionPath σ D)
  trace : List (Event σ D)
  deriving DecidableEq, Repr

/-- What `getPlannerData` hands to the `PlannerData` object. -/
inductive DataItem (σ : Type) where
  | goalVertex (s : σ) : DataItem σ
  | startVertex (s : σ) : DataItem σ
  | edge (a b : σ) : DataItem σ
  deriving DecidableEq, Repr

variable {σ D : Type}

/-- Lines 74-79: every start state becomes a parentless Motion added to the tree. -/
def seedStarts : List σ → List (Motion σ) → List (Motion σ)
  | [], nn => nn
  | st :: rest, nn => seedStarts rest (nn ++ [{ state := st, parent := none }])

/-- Lines 102-105: the sampled state `rstate` and the collaborator calls made to get it.
The conjunction short-circuits: `uniform01` is only called for a sampleable goal and
`canSample` only when the draw is below the bias. -/
def sample [LinearOrder D] (env : Env σ D) (t : Tick σ D) : σ × List (Event σ D) :=
  if env.goalSampleable then
    if t.uniform01 < env.goalBias then
      if t.canSample then
        (t.sampleGoal, [.uniform01 t.uniform01, .canSample true, .sampleGoal t.sampleGoal])
      else
        (t.sampleUniform, [.uniform01 t.uniform01, .canSample false, .sampleUniform t.sampleUniform])
    else
      (t.sampleUniform, [.uniform01 t.uniform01, .sampleUniform t.sampleUniform])
  else
    (t.sampleUniform, [.sampleUniform t.sampleUniform])

/-- Lines 101-164: the body of the loop. The flag is `true` when the body leaves
through `break`. (The distance `d` of line 112 is computed and never used.) -/
def iterate [LinearOrder D] (env : Env σ D) (t : Tick σ D) (st : LoopState σ D) :
    Option (LoopState σ D × Bool) :=
  let rstate := (sample env t).1
  let n := env.nearest st.nn rstate
  match st.nn[n]? with
  | none => none
  | some nmotion =>
    let dstate := rstate
    let tr := st.trace ++ (sample env t).2 ++ [.nearest rstate n]
    if env.checkMotion nmotion.state dstate then
      let motion : Motion σ := { state := dstate, parent := some n }
      let added := st.nn.length
      let nn := st.nn ++ [motion]
      let sat := (env.isSatisfied motion.state).1
      let dist := (env.isSatisfied motion.state).2
      let tr := tr ++ [.checkMotion nmotion.state dstate true, .isSatisfied motion.state sat dist]
      if sat then
        some ({ nn := nn, solution := some added, approxsol := st.approxsol,
                approxdif := dist, trace := tr }, true)
      else if ExtDist.lt dist st.approxdif then
        some ({ nn := nn, solution := st.solution, approxsol := some added,
                approxdif := dist, trace := tr }, false)
      else
        some ({ nn := nn, solution := st.solution, approxsol := st.approxsol,
                approxdif := st.approxdif, trace := tr }, false)
    else
      some ({ st with trace := tr ++ [.checkMotion nmotion.state dstate false] }, false)

/-- Lines 99-165: `while (!ptc)`, one tick per poll that answers `false`. -/
def growLoop [LinearOrder D] (env : Env σ D) :
    List (Tick σ D) → LoopState σ D → Option (LoopState σ D)
  | [], st => some { st with trace := st.trace ++ [.ptc true] }
  | t :: ts, st =>
    match iterate env t { st with trace := st.trace ++ [.ptc false] } with
    | none => none
    | some (st', true) => some st'
    | some (st', false) => growLoop env ts st'

/-- Lines 180-185: follow the parent pointers from `cur`, collecting the Motions met.
With no steps left and a Motion still to visit there is no result. -/
def mpath (nn : List (Motion σ)) : Nat → Option Nat → Option (List (Motion σ))
  | _, none => some []
  | 0, some _ => none
  | fuel + 1, some i =>
    match nn[i]? with
    | none => none
    | some m =>
      match mpath nn fuel m.parent with
      | none => none
      | some rest => some (m :: rest)

/-- Lines 188-190: the states of `mpath` from the last index down to 0. -/
def pathStates (mp : List (Motion σ)) : List σ :=
  mp.reverse.map Motion.state

/-- The locals of `solve` at line 99, before the first poll of `ptc`. -/
def initLoop (nn : List (Motion σ)) : LoopState σ D :=
  { nn := nn, solution := none, approxsol := none, approxdif := .infinity, trace := [] }

/-- Lines 67-203. `starts` are the states `pis_.nextStart()` yields in this call. The
parent chain of the solution is followed for at most as many steps as the tree has nodes. -/
def solve [LinearOrder D] (env : Env σ D) (P : Planner σ) (starts : List σ)
    (ticks : List (Tick σ D)) : Option (Outcome σ D) :=
  let nn := seedStarts starts P.nn
  if nn.length = 0 then
    some { status := .INVALID_START, planner := { P with nn := nn }, registered := none,
           trace := [] }
  else
    match growLoop env ticks (initLoop nn) with
    | none => none
    | some st =>
      let solved := false
      let approximate := false
      let solution := if st.solution = none then st.approxsol else st.solution
      let approximate := if st.solution = none then true else approximate
      match solution with
      | none =>
        some { status := .result solved approximate,
               planner := { nn := st.nn, lastGoalMotion := P.lastGoalMotion, sampler := true },
               registered := none, trace := st.trace }
      | some goalMotion =>
        match mpath st.nn st.nn.length (some goalMotion) with
        | none => none
        | some mp =>
          some { status := .result true approximate,
                 planner := { nn := st.nn, lastGoalMotion := some goalMotion, sampler := true },
                 registered := some { path := pathStates mp, approximate := approximate,
                                      difference := st.approxdif },
                 trace := st.trace }

/-- Lines 52-65: `freeMemory` releases the state of every listed Motion and the Motion
itself. Which pointers `nn_` lists and the other members are left as they are. -/
def freeMemory (P : Planner σ) : Planner σ :=
  P

/-- Lines 43-50: `clear` resets the sampler, frees the Motions, empties the tree and
sets `lastGoalMotion_` to null. -/
def clear (P : Planner σ) : Planner σ :=
  let P1 : Planner σ := { P with sampler := false }
  let P2 : Planner σ := freeMemory P1
  let P3 : Planner σ := { P2 with nn := [] }
  { P3 with lastGoalMotion := none }

/-- Lines 230-233: what one Motion contributes to the planner data. -/
def reportMotion (nn : List (Motion σ)) (m : Motion σ) : Option (DataItem σ) :=
  match m.parent with
  | none => some (.startVertex m.state)
  | some p =>
    match nn[p]? with
    | none => none
    | some pm => some (.edge pm.state m.state)

/-- Lines 228-234: the loop over the listed Motions. -/
def reportMotions (nn : List (Motion σ)) : List (Motion σ) → Option (List (DataItem σ))
  | [] => some []
  | m :: ms =>
    match reportMotion nn m, reportMotions nn ms with
    | some x, some xs => some (x :: xs)
    | _, _ => none

/-- Lines 217-235: `getPlannerData`. The result is the list of items added to `data`
and the planner afterwards (the method is `const`). -/
def getPlannerData (P : Planner σ) : Option (List (DataItem σ) × Planner σ) :=
  let motions := P.nn
  let goal : Option (List (DataItem σ)) :=
    match P.lastGoalMotion with
    | none => some []
    | some g =>
      match P.nn[g]? with
      | none => none
      | some m => some [.goalVertex m.state]
  match goal, reportMotions P.nn motions with
  | some gs, some items => some (gs ++ items, P)
  | _, _ => none

/-- Goal distance of a state. -/
def goalDist (env : Env σ D) (s : σ) : ExtDist D := (env.isSatisfied s).2

/-- Goal flag of a state. -/
def goalSat (env : Env σ D) (s : σ) : Bool := (env.isSatisfied s).1

/-- Parent pointers refer to Motions added earlier. -/
def Forest (nn : List (Motion σ)) : Prop :=
  ∀ (i : Nat) (m : Motion σ) (p : Nat), nn[i]? = some m → m.parent = some p → p < i

/-- Contract of the nearest-neighbour structure: on a non-empty tree the answer is a
Motion of the tree. -/
def NearestOk (env : Env σ D) : Prop :=
  ∀ nn q, nn ≠ [] → env.nearest nn q < nn.length

/-- Recogniser of the trace entries of edge checks that succeeded. -/
def validCheck : Event σ D → Bool
  | .checkMotion _ _ true => true
  | _ => false

/-- Facts about tree and trace that hold at every point of the loop, relative to the tree
`base` the loop started with. -/
structure Grown (env : Env σ D) (base : List (Motion σ)) (st : LoopState σ D) : Prop where
  ext : ∃ added, st.nn = base ++ added
  edges : ∀ (i : Nat) (m : Motion σ), base.length ≤ i → st.nn[i]? = some m →
    ∃ (p : Nat) (pm : Motion σ), m.parent = some p ∧ p < i ∧ st.nn[p]? = some pm ∧
      env.checkMotion pm.state m.state = true ∧
      Event.checkMotion pm.state m.state true ∈ st.trace
  count : st.nn.length = base.length + st.trace.countP validCheck

/-- Facts that hold as long as the loop has not left through `break`. -/
structure Searching [LinearOrder D] (env : Env σ D) (base : List (Motion σ))
    (st : LoopState σ D) : Prop where
  noSol : st.solution = none
  unsat : ∀ (i : Nat) (m : Motion σ), base.length ≤ i → st.nn[i]? = some m → goalSat env m.state = false
  below : ∀ (i : Nat) (m : Motion σ), base.length ≤ i → st.nn[i]? = some m →
    ExtDist.lt (goalDist env m.state) st.approxdif = false
  tracker :
    (st.approxsol = none ∧ st.approxdif = .infinity) ∨
    (∃ (j : Nat) (mj : Motion σ) (d : D), st.approxsol = some j ∧ base.length ≤ j ∧
      st.nn[j]? = some mj ∧ goalDist env mj.state = .fin d ∧ st.approxdif = .fin d ∧
      (∀ (i : Nat) (m : Motion σ), base.length ≤ i → i < j → st.nn[i]? = some m →
        goalDist env m.state = .nan ∨
        ExtDist.lt (.fin d) (goalDist env m.state) = true))

/-- Facts that hold once the loop has left through `break`. -/
structure Found (env : Env σ D) (base : List (Motion σ)) (st : LoopState σ D) : Prop where
  sol : ∃ (g : Nat) (mg : Motion σ), st.solution = some g ∧ base.length ≤ g ∧ st.nn[g]? = some mg ∧
    st.nn.length = g + 1 ∧ goalSat env mg.state = true ∧
    st.approxdif = goalDist env mg.state
  unsat : ∀ (i : Nat) (m : Motion σ), base.length ≤ i → i + 1 < st.nn.length → st.nn[i]? = some m →
    goalSat env m.state = false

/-- Number of parent steps from the Motion at `i` to a Motion without parent, when it is
below `fuel`. -/
def depth (nn : List (Motion σ)) : Nat → Nat → Option Nat
  | 0, _ => none
  | fuel + 1, i =>
    match nn[i]? with
    | none => none
    | some m =>
      match m.parent with
      | none => some 0
      | some p =>
        match depth nn fuel p with
        | none => none
        | some d => some (d + 1)

/-- The Motion `child` is in the tree and points to the Motion `par` of the tree as its
parent. -/
def ChildOf (nn : List (Motion σ)) (child par : Motion σ) : Prop :=
  ∃ j p : Nat, nn[j]? = some child ∧ child.parent = some p ∧ nn[p]? = some par

/-- An environment on natural numbers: the goal is the state 10, the goal distance is
the distance to 10, the nearest Motion is the one added last, and no edge into the
state 7 is valid. -/
def envW : Env Nat Nat :=
  { goalSampleable := true
    goalBias := 5
    nearest := fun nn _ => nn.length - 1
    checkMotion := fun _ b => decide (b ≠ 7)
    isSatisfied := fun s => (decide (s = 10), .fin (if s ≤ 10 then 10 - s else s - 10)) }

/-- A tick for `envW`: the draw `u`, a goal region that can be sampled and yields 10,
and the uniform sample `s`. -/
def tickW (u s : Nat) : Tick Nat Nat :=
  { uniform01 := u, canSample := true, sampleGoal := 10, sampleUniform := s }

/-- A planner with an empty tree. -/
def emptyPlanner : Planner Nat :=
  { nn := [], lastGoalMotion := none, sampler := false }

/-- Ticks of a run that records approximate candidates and then samples the goal. -/
def ticksExact : List (Tick Nat Nat) :=
  [tickW 50 3, tickW 50 7, tickW 50 8, tickW 50 2, tickW 1 4, tickW 50 9]

/-- Ticks of a run that ends without reaching the goal. -/
def ticksApprox : List (Tick Nat Nat) :=
  [tickW 50 3, tickW 50 7, tickW 50 8, tickW 50 2, tickW 50 12]

/-- A tree with two roots and a branch of depth two. -/
def treeW : List (Motion Nat) :=
  [⟨0, none⟩, ⟨1, none⟩, ⟨3, some 1⟩, ⟨8, some 2⟩, ⟨2, some 2⟩]

/-- An environment like `envW` in which no edge is valid. -/
def envBlocked : Env Nat Nat :=
  { envW with checkMotion := fun _ _ => false }

/-- The Motion `m` at position `i` has no parent or a parent in the tree, and following
parent pointers from it reaches a parentless Motion within as many steps as the tree
has Motions. -/
def WellRooted (nn : List (Motion σ)) (i : Nat) (m : Motion σ) : Prop :=
  (m.parent = none ∨ ∃ (p : Nat) (pm : Motion σ), m.parent = some p ∧ nn[p]? = some pm) ∧
  ∃ d : Nat, depth nn nn.length i = some d ∧ d ≤ nn.length

/-- An environment whose goal is the half-line from 10 on and whose goal distance is the
distance to the state 10: a state can satisfy the goal at a larger distance than a state
that does not. -/
def envC : Env Nat Nat :=
  { goalSampleable := false
    goalBias := 0
    nearest := fun nn _ => nn.length - 1
    checkMotion := fun _ _ => true
    isSatisfied := fun s => (decide (10 ≤ s), .fin (if s ≤ 10 then 10 - s else s - 10)) }

/-- The loop state of `envC` after the start 0 and the state 9 were added. -/
def stC : LoopState Nat Nat :=
  { nn := [⟨0, none⟩, ⟨9, some 0⟩], solution := none, approxsol := some 1,
    approxdif := .fin 1, trace := [] }

/-- The state `stC` after an iteration that samples 7: distance 3, no improvement. -/
def stC7 : LoopState Nat Nat :=
  { nn := [⟨0, none⟩, ⟨9, some 0⟩, ⟨7, some 1⟩], solution := none, approxsol := some 1,
    approxdif := .fin 1,
    trace := [.sampleUniform 7, .nearest 7 1, .checkMotion 9 7 true, .isSatisfied 7 false (.fin 3)] }

/-- The state `stC` after an iteration that samples the goal state 15 at distance 5. -/
def stC15 : LoopState Nat Nat :=
  { nn := [⟨0, none⟩, ⟨9, some 0⟩, ⟨15, some 1⟩], solution := some 2, approxsol := some 1,
    approxdif := .fin 5,
    trace := [.sampleUniform 15, .nearest 15 1, .checkMotion 9 15 true,
              .isSatisfied 15 true (.fin 5)] }

/-- Recogniser of start vertices in the planner data. -/
def isStartVertex : DataItem σ → Bool
  | .startVertex _ => true
  | _ => false

/-- Recogniser of edges in the planner data. -/
def isEdge : DataItem σ → Bool
  | .edge _ _ => true
  | _ => false

/-- Recogniser of goal vertices in the planner data. -/
def isGoalVertex : DataItem σ → Bool
  | .goalVertex _ => true
  | _ => false

/-- Recogniser of Motions without parent. -/
def isRoot (m : Motion σ) : Bool := m.parent.isNone

/-- A planner left behind by an earlier run: two Motions and a remembered goal Motion. -/
def usedPlanner : Planner Nat :=
  { nn := [⟨0, none⟩, ⟨3, some 0⟩], lastGoalMotion := some 1, sampler := true }

/-- Recogniser of goal-bias draws in the trace. -/
def isDraw : Event σ D → Bool
  | .uniform01 _ => true
  | _ => false

/-- Recogniser of the polls of `ptc` that start a loop iteration. -/
def isIteration : Event σ D → Bool
  | .ptc false => true
  | _ => false

/-- Every goal test recorded in the trace was made on the configuration of a Motion at a
position from `n0` on. -/
def GoalTested (n0 : Nat) (st : LoopState σ D) : Prop :=
  ∀ (s : σ) (sat : Bool) (d : ExtDist D), Event.isSatisfied s sat d ∈ st.trace →
    ∃ (i : Nat) (m : Motion σ), n0 ≤ i ∧ st.nn[i]? = some m ∧ m.state = s

/-- The planner that `solve envW emptyPlanner [0] ticksApprox` leaves behind. -/
def afterFirst : Planner Nat :=
  { nn := [⟨0, none⟩, ⟨3, some 0⟩, ⟨8, some 1⟩, ⟨2, some 2⟩, ⟨12, some 3⟩],
    lastGoalMotion := some 2, sampler := true }

/-- An environment like `envW` whose goal is never satisfied and whose goal test writes
`+infinity` to `dist` for every state. -/
def envInf : Env Nat Nat :=
  { envW with isSatisfied := fun _ => (false, .infinity) }

/-- An environment like `envW` whose goal is never satisfied and whose goal test writes
NaN to `dist` for every state. -/
def envNan : Env Nat Nat :=
  { envW with isSatisfied := fun _ => (false, .nan) }

/-! ## Lemmas and theorems -/

theorem seedStarts_eq (starts : List σ) (nn : List (Motion σ)) :
    seedStarts starts nn = nn ++ starts.map (fun st => { state := st, parent := none }) := by
  induction starts generalizing nn with
  | nil => simp [seedStarts]
  | cons s rest ih => simp [seedStarts, ih]

theorem iterate_cases [LinearOrder D] {env : Env σ D} {t : Tick σ D} {st st' : LoopState σ D}
    {b : Bool} (h : iterate env t st = some (st', b)) :
    ∃ nm, st.nn[env.nearest st.nn (sample env t).1]? = some nm ∧
      ((env.checkMotion nm.state (sample env t).1 = false ∧ b = false ∧
          st' = { st with trace := st.trace ++ (sample env t).2 ++
            [.nearest (sample env t).1 (env.nearest st.nn (sample env t).1)] ++
            [.checkMotion nm.state (sample env t).1 false] }) ∨
       (env.checkMotion nm.state (sample env t).1 = true ∧
          st'.nn = st.nn ++ [{ state := (sample env t).1,
                               parent := some (env.nearest st.nn (sample env t).1) }] ∧
          st'.trace = st.trace ++ (sample env t).2 ++
            [.nearest (sample env t).1 (env.nearest st.nn (sample env t).1)] ++
            [.checkMotion nm.state (sample env t).1 true,
             .isSatisfied (sample env t).1 (goalSat env (sample env t).1)
               (goalDist env (sample env t).1)] ∧
          ((goalSat env (sample env t).1 = true ∧ b = true ∧
              st'.solution = some st.nn.length ∧ st'.approxsol = st.approxsol ∧
              st'.approxdif = goalDist env (sample env t).1) ∨
           (goalSat env (sample env t).1 = false ∧ b = false ∧
              ExtDist.lt (goalDist env (sample env t).1) st.approxdif = true ∧
              st'.solution = st.solution ∧ st'.approxsol = some st.nn.length ∧
              st'.approxdif = goalDist env (sample env t).1) ∨
           (goalSat env (sample env t).1 = false ∧ b = false ∧
              ExtDist.lt (goalDist env (sample env t).1) st.approxdif = false ∧
              st'.solution = st.solution ∧ st'.approxsol = st.approxsol ∧
              st'.approxdif = st.approxdif)))) := by
  unfold iterate at h
  simp only at h
  split at h
  · exact absurd h (by simp)
  · rename_i nm hnm
    refine ⟨nm, hnm, ?_⟩
    by_cases hc : env.checkMotion nm.state (sample env t).1 = true
    · rw [if_pos hc] at h
      right
      refine ⟨hc, ?_⟩
      by_cases hs : (env.isSatisfied (sample env t).1).1 = true
      · rw [if_pos hs] at h
        simp only [Option.some.injEq, Prod.mk.injEq] at h
        obtain ⟨h1, h2⟩ := h
        subst h1
        simp [goalSat, goalDist, hs, h2.symm]
      · rw [if_neg hs] at h
        simp only [Bool.not_eq_true] at hs
        by_cases ha : ExtDist.lt (env.isSatisfied (sample env t).1).2 st.approxdif = true
        · rw [if_pos ha] at h
          simp only [Option.some.injEq, Prod.mk.injEq] at h
          obtain ⟨h1, h2⟩ := h
          subst h1
          simp [goalSat, goalDist, hs, h2.symm, ha]
        · rw [if_neg ha] at h
          simp only [Bool.not_eq_true] at ha
          simp only [Option.some.injEq, Prod.mk.injEq] at h
          obtain ⟨h1, h2⟩ := h
          subst h1
          simp [goalSat, goalDist, hs, h2.symm, ha]
    · rw [if_neg hc] at h
      simp only [Bool.not_eq_true] at hc
      left
      simp only [Option.some.injEq, Prod.mk.injEq] at h
      obtain ⟨h1, h2⟩ := h
      exact ⟨hc, h2.symm, h1.symm⟩

theorem grown_init (env : Env σ D) (base : List (Motion σ)) :
    Grown env base (initLoop base) := by
  refine ⟨⟨[], by simp [initLoop]⟩, ?_, by simp [initLoop]⟩
  intro i m hi hm
  have : (initLoop base : LoopState σ D).nn[i]? = none := by
    simp [initLoop]; exact hi
  rw [this] at hm
  exact absurd hm (by simp)

theorem searching_init [LinearOrder D] (env : Env σ D) (base : List (Motion σ)) :
    Searching env base (initLoop base) := by
  have hnone : ∀ (i : Nat) (m : Motion σ), base.length ≤ i →
      (initLoop base : LoopState σ D).nn[i]? = some m → False := by
    intro i m hi hm
    have : (initLoop base : LoopState σ D).nn[i]? = none := by
      simp [initLoop]; exact hi
    rw [this] at hm
    exact absurd hm (by simp)
  exact ⟨rfl, fun i m hi hm => (hnone i m hi hm).elim,
    fun i m hi hm => (hnone i m hi hm).elim, Or.inl ⟨rfl, rfl⟩⟩

theorem grown_poll {env : Env σ D} {base : List (Motion σ)} {st : LoopState σ D}
    (h : Grown env base st) (b : Bool) :
    Grown env base { st with trace := st.trace ++ [.ptc b] } := by
  refine ⟨h.ext, ?_, ?_⟩
  · intro i m hi hm
    obtain ⟨p, pm, h1, h2, h3, h4, h5⟩ := h.edges i m hi hm
    exact ⟨p, pm, h1, h2, h3, h4, by simp [h5]⟩
  · simp [h.count, List.countP_append, validCheck]

theorem searching_poll [LinearOrder D] {env : Env σ D} {base : List (Motion σ)}
    {st : LoopState σ D} (h : Searching env base st) (b : Bool) :
    Searching env base { st with trace := st.trace ++ [.ptc b] } :=
  ⟨h.noSol, h.unsat, h.below, h.tracker⟩

theorem found_poll {env : Env σ D} {base : List (Motion σ)}
    {st : LoopState σ D} (h : Found env base st) (b : Bool) :
    Found env base { st with trace := st.trace ++ [.ptc b] } :=
  ⟨h.sol, h.unsat⟩

theorem countP_validCheck_sample [LinearOrder D] (env : Env σ D) (t : Tick σ D) :
    (sample env t).2.countP validCheck = 0 := by
  unfold sample
  split
  · split
    · split <;> simp [validCheck]
    · simp [validCheck]
  · simp [validCheck]

theorem getElem?_concat_cases {α : Type} {l : List α} {a m : α} {i : Nat}
    (h : (l ++ [a])[i]? = some m) : l[i]? = some m ∨ (i = l.length ∧ m = a) := by
  rcases Nat.lt_trichotomy i l.length with hlt | heq | hgt
  · left
    rwa [List.getElem?_append_left hlt] at h
  · right
    subst heq
    rw [List.getElem?_concat_length] at h
    exact ⟨rfl, (Option.some.inj h).symm⟩
  · rw [List.getElem?_eq_none (by simp; omega)] at h
    exact absurd h (by simp)

theorem getElem?_concat_of_some {α : Type} {l : List α} {a m : α} {i : Nat}
    (h : l[i]? = some m) : (l ++ [a])[i]? = some m := by
  have hlt : i < l.length := by
    obtain ⟨h1, _⟩ := List.getElem?_eq_some.mp h
    exact h1
  rw [List.getElem?_append_left hlt]
  exact h

theorem lt_length_of_getElem? {α : Type} {l : List α} {m : α} {i : Nat}
    (h : l[i]? = some m) : i < l.length := by
  obtain ⟨h1, _⟩ := List.getElem?_eq_some.mp h
  exact h1

theorem iterate_grown [LinearOrder D] {env : Env σ D} {base : List (Motion σ)} {t : Tick σ D}
    {st st' : LoopState σ D} {b : Bool} (hg : Grown env base st)
    (h : iterate env t st = some (st', b)) : Grown env base st' := by
  obtain ⟨nm, hnm, hcase⟩ := iterate_cases h
  rcases hcase with ⟨_, _, rfl⟩ | ⟨hc, hnn, htr, _⟩
  · refine ⟨hg.ext, ?_, ?_⟩
    · intro i m hi hm
      obtain ⟨p, pm, h1, h2, h3, h4, h5⟩ := hg.edges i m hi hm
      exact ⟨p, pm, h1, h2, h3, h4, by simp [h5]⟩
    · simp [hg.count, List.countP_append, validCheck, countP_validCheck_sample]
  · obtain ⟨added, hadd⟩ := hg.ext
    refine ⟨⟨added ++ [_], by rw [hnn, hadd, List.append_assoc]⟩, ?_, ?_⟩
    · intro i m hi hm
      rw [hnn] at hm
      rcases getElem?_concat_cases hm with hold | ⟨hi', hm'⟩
      · obtain ⟨p, pm, h1, h2, h3, h4, h5⟩ := hg.edges i m hi hold
        refine ⟨p, pm, h1, h2, ?_, h4, ?_⟩
        · rw [hnn]; exact getElem?_concat_of_some h3
        · rw [htr]; simp [h5]
      · subst hm'
        refine ⟨_, nm, rfl, ?_, ?_, hc, ?_⟩
        · rw [hi']; exact lt_length_of_getElem? hnm
        · rw [hnn]; exact getElem?_concat_of_some hnm
        · rw [htr]; simp
    · rw [hnn, htr]
      simp [hg.count, List.countP_append, validCheck, countP_validCheck_sample]
      omega
theorem grown_base_le {env : Env σ D} {base : List (Motion σ)} {st : LoopState σ D}
    (h : Grown env base st) : base.length ≤ st.nn.length := by
  obtain ⟨added, hadd⟩ := h.ext
  rw [hadd, List.length_append]
  omega

theorem extDist_lt_fin [LinearOrder D] {a b : ExtDist D} (h : ExtDist.lt a b = true) :
    ∃ d : D, a = .fin d := by
  cases a with
  | infinity => cases b <;> simp [ExtDist.lt] at h
  | fin d => exact ⟨d, rfl⟩
  | nan => cases b <;> simp [ExtDist.lt] at h

theorem extDist_lt_irrefl [LinearOrder D] (a : ExtDist D) : ExtDist.lt a a = false := by
  cases a <;> simp [ExtDist.lt]

theorem extDist_lt_of_not_lt [LinearOrder D] {a b x : ExtDist D}
    (h : ExtDist.lt a b = true) (hx : ExtDist.lt x b = false) :
    x = .nan ∨ ExtDist.lt a x = true := by
  cases a with
  | infinity => cases b <;> simp [ExtDist.lt] at h
  | nan => cases b <;> simp [ExtDist.lt] at h
  | fin d =>
    cases x with
    | nan => exact Or.inl rfl
    | infinity => exact Or.inr rfl
    | fin f =>
      right
      cases b with
      | infinity => simp [ExtDist.lt] at hx
      | nan => simp [ExtDist.lt] at h
      | fin e =>
        simp only [ExtDist.lt, decide_eq_true_eq, decide_eq_false_iff_not, not_lt] at h hx ⊢
        exact lt_of_lt_of_le h hx

theorem extDist_lt_asymm [LinearOrder D] {a x : ExtDist D}
    (h : x = .nan ∨ ExtDist.lt a x = true) : ExtDist.lt x a = false := by
  rcases h with h | h
  · subst h
    cases a <;> rfl
  · cases a with
    | infinity => cases x <;> simp [ExtDist.lt] at h
    | nan => cases x <;> simp [ExtDist.lt] at h
    | fin d =>
      cases x with
      | nan => rfl
      | infinity => rfl
      | fin f =>
        simp only [ExtDist.lt, decide_eq_true_eq, decide_eq_false_iff_not, not_lt] at h ⊢
        exact le_of_lt h

theorem iterate_searching [LinearOrder D] {env : Env σ D} {base : List (Motion σ)}
    {t : Tick σ D} {st st' : LoopState σ D} (hg : Grown env base st)
    (hs : Searching env base st) (h : iterate env t st = some (st', false)) :
    Searching env base st' := by
  obtain ⟨nm, hnm, hcase⟩ := iterate_cases h
  have hbl := grown_base_le hg
  rcases hcase with ⟨_, _, rfl⟩ | ⟨hc, hnn, htr, hcase⟩
  · exact ⟨hs.noSol, hs.unsat, hs.below, hs.tracker⟩
  · have hunsat : goalSat env (sample env t).1 = false →
        ∀ (i : Nat) (m : Motion σ), base.length ≤ i → st'.nn[i]? = some m →
          goalSat env m.state = false := by
      intro hsat i m hi hm
      rw [hnn] at hm
      rcases getElem?_concat_cases hm with hold | ⟨_, hm'⟩
      · exact hs.unsat i m hi hold
      · rw [hm']; exact hsat
    rcases hcase with ⟨_, hb, _⟩ | ⟨hsat, _, habove, hsol, hap, hdif⟩ |
      ⟨hsat, _, habove, hsol, hap, hdif⟩
    · exact absurd hb (by simp)
    · obtain ⟨d, hd⟩ := extDist_lt_fin habove
      have hkey : ∀ (i : Nat) (m : Motion σ), base.length ≤ i → st.nn[i]? = some m →
          goalDist env m.state = .nan ∨
          ExtDist.lt (goalDist env (sample env t).1) (goalDist env m.state) = true :=
        fun i m hi hm => extDist_lt_of_not_lt habove (hs.below i m hi hm)
      refine ⟨by rw [hsol]; exact hs.noSol, hunsat hsat, ?_, Or.inr ?_⟩
      · intro i m hi hm
        rw [hnn] at hm
        rw [hdif]
        rcases getElem?_concat_cases hm with hold | ⟨_, hm'⟩
        · exact extDist_lt_asymm (hkey i m hi hold)
        · rw [hm']
          exact extDist_lt_irrefl _
      · refine ⟨st.nn.length, ⟨(sample env t).1, some (env.nearest st.nn (sample env t).1)⟩,
          d, hap, hbl, ?_, hd, by rw [hdif, hd], ?_⟩
        · rw [hnn]; exact List.getElem?_concat_length _ _
        · intro i m hi hlt hm
          rw [hnn] at hm
          rcases getElem?_concat_cases hm with hold | ⟨hi', _⟩
          · have := hkey i m hi hold
            rw [hd] at this
            exact this
          · omega
    · refine ⟨by rw [hsol]; exact hs.noSol, hunsat hsat, ?_, ?_⟩
      · intro i m hi hm
        rw [hnn] at hm
        rw [hdif]
        rcases getElem?_concat_cases hm with hold | ⟨_, hm'⟩
        · exact hs.below i m hi hold
        · rw [hm']
          exact habove
      · rcases hs.tracker with ⟨hnone, hinf⟩ | ⟨j, mj, d, hj, hbj, hmj, hd, hdf, hfirst⟩
        · left
          exact ⟨by rw [hap]; exact hnone, by rw [hdif]; exact hinf⟩
        · right
          refine ⟨j, mj, d, by rw [hap]; exact hj, hbj, ?_, hd, by rw [hdif]; exact hdf, ?_⟩
          · rw [hnn]; exact getElem?_concat_of_some hmj
          · intro i m hi hlt hm
            rw [hnn] at hm
            rcases getElem?_concat_cases hm with hold | ⟨hi', _⟩
            · exact hfirst i m hi hlt hold
            · have := lt_length_of_getElem? hmj
              omega

theorem searching_best [LinearOrder D] {env : Env σ D} {base : List (Motion σ)}
    {st : LoopState σ D} (hs : Searching env base st) {j : Nat}
    (hap : st.approxsol = some j) :
    ∃ (mj : Motion σ) (d : D), base.length ≤ j ∧ st.nn[j]? = some mj ∧
      goalDist env mj.state = .fin d ∧ st.approxdif = .fin d ∧
      (∀ (i : Nat) (m : Motion σ), base.length ≤ i → i < j → st.nn[i]? = some m →
        goalDist env m.state = .nan ∨
        ExtDist.lt (.fin d) (goalDist env m.state) = true) := by
  rcases hs.tracker with ⟨h1, _⟩ | ⟨j', mj, d, h1, h2, h3, h4, h5, h6⟩
  · rw [hap] at h1
    exact absurd h1 (by simp)
  · rw [hap] at h1
    simp only [Option.some.injEq] at h1
    subst h1
    exact ⟨mj, d, h2, h3, h4, h5, h6⟩

theorem iterate_found [LinearOrder D] {env : Env σ D} {base : List (Motion σ)}
    {t : Tick σ D} {st st' : LoopState σ D} (hg : Grown env base st)
    (hs : Searching env base st) (h : iterate env t st = some (st', true)) :
    Found env base st' := by
  obtain ⟨nm, hnm, hcase⟩ := iterate_cases h
  have hbl := grown_base_le hg
  rcases hcase with ⟨_, hb, _⟩ | ⟨hc, hnn, htr, hcase⟩
  · exact absurd hb (by simp)
  · rcases hcase with ⟨hsat, _, hsol, _, hdif⟩ | ⟨_, hb, _⟩ | ⟨_, hb, _⟩
    · refine ⟨⟨st.nn.length, ⟨(sample env t).1, some (env.nearest st.nn (sample env t).1)⟩,
        hsol, hbl, ?_, ?_, hsat, hdif⟩, ?_⟩
      · rw [hnn]; exact List.getElem?_concat_length _ _
      · rw [hnn]; simp
      · intro i m hi hlt hm
        rw [hnn] at hm hlt
        rcases getElem?_concat_cases hm with hold | ⟨hi', _⟩
        · exact hs.unsat i m hi hold
        · simp at hlt
          omega
    · exact absurd hb (by simp)
    · exact absurd hb (by simp)

theorem growLoop_spec [LinearOrder D] {env : Env σ D} {base : List (Motion σ)}
    (ticks : List (Tick σ D)) {st st' : LoopState σ D} (hg : Grown env base st)
    (hs : Searching env base st) (h : growLoop env ticks st = some st') :
    Grown env base st' ∧ (Searching env base st' ∨ Found env base st') := by
  induction ticks generalizing st with
  | nil =>
    simp only [growLoop, Option.some.injEq] at h
    subst h
    exact ⟨grown_poll hg true, Or.inl (searching_poll hs true)⟩
  | cons t ts ih =>
    simp only [growLoop] at h
    split at h
    · exact absurd h (by simp)
    · rename_i st1 hit
      simp only [Option.some.injEq] at h
      subst h
      exact ⟨iterate_grown (grown_poll hg false) hit,
        Or.inr (iterate_found (grown_poll hg false) (searching_poll hs false) hit)⟩
    · rename_i st1 hit
      exact ih (iterate_grown (grown_poll hg false) hit)
        (iterate_searching (grown_poll hg false) (searching_poll hs false) hit) h

theorem iterate_total [LinearOrder D] {env : Env σ D} (hn : NearestOk env) (t : Tick σ D)
    (st : LoopState σ D) (hne : st.nn ≠ []) :
    ∃ st' b, iterate env t st = some (st', b) ∧ st'.nn ≠ [] := by
  have hlt := hn st.nn (sample env t).1 hne
  obtain ⟨nm, hnm⟩ : ∃ nm, st.nn[env.nearest st.nn (sample env t).1]? = some nm :=
    ⟨_, List.getElem?_eq_getElem hlt⟩
  unfold iterate
  simp only [hnm]
  split
  · split
    · exact ⟨_, _, rfl, by simp⟩
    · split
      · exact ⟨_, _, rfl, by simp⟩
      · exact ⟨_, _, rfl, by simp⟩
  · exact ⟨_, _, rfl, hne⟩

theorem growLoop_total [LinearOrder D] {env : Env σ D} (hn : NearestOk env)
    (ticks : List (Tick σ D)) (st : LoopState σ D) (hne : st.nn ≠ []) :
    ∃ st', growLoop env ticks st = some st' := by
  induction ticks generalizing st with
  | nil => exact ⟨_, rfl⟩
  | cons t ts ih =>
    obtain ⟨st1, b, hit, hne1⟩ :=
      iterate_total hn t { st with trace := st.trace ++ [.ptc false] } hne
    simp only [growLoop, hit]
    cases b with
    | true => exact ⟨_, rfl⟩
    | false => exact ih st1 hne1

theorem growLoop_exit [LinearOrder D] {env : Env σ D} (ticks : List (Tick σ D))
    {st st' : LoopState σ D} (h : growLoop env ticks st = some st') :
    (st'.solution = st.solution ∧ st'.trace.getLast? = some (.ptc true)) ∨
    (∃ (g : Nat) (s : σ) (d : ExtDist D), st'.solution = some g ∧
      st'.trace.getLast? = some (.isSatisfied s true d)) := by
  induction ticks generalizing st with
  | nil =>
    simp only [growLoop, Option.some.injEq] at h
    subst h
    left
    exact ⟨rfl, by simp⟩
  | cons t ts ih =>
    simp only [growLoop] at h
    split at h
    · exact absurd h (by simp)
    · rename_i st1 hit
      simp only [Option.some.injEq] at h
      subst h
      right
      obtain ⟨nm, _, hcase⟩ := iterate_cases hit
      rcases hcase with ⟨_, hb, _⟩ | ⟨_, _, htr, hcase⟩
      · exact absurd hb (by simp)
      · rcases hcase with ⟨hsat, _, hsol, _⟩ | ⟨_, hb, _⟩ | ⟨_, hb, _⟩
        · refine ⟨_, (sample env t).1, goalDist env (sample env t).1, hsol, ?_⟩
          rw [htr, hsat, List.getLast?_append]
          rfl
        · exact absurd hb (by simp)
        · exact absurd hb (by simp)
    · rename_i st1 hit
      have hsol1 : st1.solution = st.solution := by
        obtain ⟨nm, _, hcase⟩ := iterate_cases hit
        rcases hcase with ⟨_, _, rfl⟩ | ⟨_, _, _, hcase⟩
        · rfl
        · rcases hcase with ⟨_, hb, _⟩ | ⟨_, _, _, hsol, _⟩ | ⟨_, _, _, hsol, _⟩
          · exact absurd hb (by simp)
          · exact hsol
          · exact hsol
      rcases ih h with ⟨h1, h2⟩ | h3
      · left
        exact ⟨by rw [h1, hsol1], h2⟩
      · right
        exact h3

theorem mpath_none (nn : List (Motion σ)) (fuel : Nat) : mpath nn fuel none = some [] := by
  cases fuel <;> rfl

theorem mpath_spec {nn : List (Motion σ)} {fuel i : Nat} {mp : List (Motion σ)}
    (h : mpath nn fuel (some i) = some mp) :
    ∃ (m : Motion σ) (rest : List (Motion σ)), mp = m :: rest ∧ nn[i]? = some m ∧
      List.Chain' (ChildOf nn) mp ∧ (∀ x ∈ mp, ∃ j : Nat, nn[j]? = some x) ∧
      (∃ r : Motion σ, mp.getLast? = some r ∧ r.parent = none) ∧
      (∃ d : Nat, depth nn fuel i = some d ∧ mp.length = d + 1) := by
  induction fuel generalizing i mp with
  | zero => simp [mpath] at h
  | succ fuel ih =>
    simp only [mpath] at h
    split at h
    · exact absurd h (by simp)
    · rename_i m hm
      split at h
      · exact absurd h (by simp)
      · rename_i rest hrest
        simp only [Option.some.injEq] at h
        subst h
        refine ⟨m, rest, rfl, hm, ?_⟩
        cases hp : m.parent with
        | none =>
          rw [hp, mpath_none] at hrest
          simp only [Option.some.injEq] at hrest
          subst hrest
          refine ⟨List.chain'_singleton m, ?_, ⟨m, rfl, hp⟩, ⟨0, ?_, rfl⟩⟩
          · intro x hx
            simp only [List.mem_singleton] at hx
            exact ⟨i, by rw [hx]; exact hm⟩
          · simp [depth, hm, hp]
        | some p =>
          rw [hp] at hrest
          obtain ⟨pm, rest', hr, hpm, hchain, hmem, ⟨r, hlast, hroot⟩, ⟨d, hd, hlen⟩⟩ := ih hrest
          subst hr
          refine ⟨?_, ?_, ⟨r, ?_, hroot⟩, ⟨d + 1, ?_, ?_⟩⟩
          · exact List.chain'_cons.mpr ⟨⟨i, p, hm, hp, hpm⟩, hchain⟩
          · intro x hx
            rcases List.mem_cons.mp hx with hx | hx
            · exact ⟨i, by rw [hx]; exact hm⟩
            · exact hmem x hx
          · rw [List.getLast?_cons_cons]; exact hlast
          · simp [depth, hm, hp, hd]
          · simp [hlen]

theorem mpath_total {nn : List (Motion σ)} (hf : Forest nn) {fuel i : Nat}
    (hi : i < nn.length) (hfuel : i < fuel) :
    ∃ mp, mpath nn fuel (some i) = some mp := by
  induction fuel generalizing i with
  | zero => omega
  | succ fuel ih =>
    have hm : nn[i]? = some nn[i] := List.getElem?_eq_getElem hi
    simp only [mpath, hm]
    cases hp : (nn[i]).parent with
    | none => simp [mpath_none]
    | some p =>
      have hlt := hf i nn[i] p hm hp
      obtain ⟨rest, hrest⟩ := ih (i := p) (by omega) (by omega)
      simp [hrest]

theorem depth_le {nn : List (Motion σ)} (hf : Forest nn) {fuel i d : Nat}
    (h : depth nn fuel i = some d) : d ≤ i := by
  induction fuel generalizing i d with
  | zero => simp [depth] at h
  | succ fuel ih =>
    simp only [depth] at h
    split at h
    · exact absurd h (by simp)
    · rename_i m hm
      split at h
      · simp only [Option.some.injEq] at h; omega
      · rename_i p hp
        split at h
        · exact absurd h (by simp)
        · rename_i d' hd'
          simp only [Option.some.injEq] at h
          have := ih hd'
          have := hf i m p hm hp
          omega

theorem forest_seed {nn : List (Motion σ)} (hf : Forest nn) (starts : List σ) :
    Forest (seedStarts starts nn) := by
  rw [seedStarts_eq]
  intro i m p hm hp
  rcases Nat.lt_or_ge i nn.length with hlt | hge
  · rw [List.getElem?_append_left hlt] at hm
    exact hf i m p hm hp
  · rw [List.getElem?_append_right hge, List.getElem?_map] at hm
    cases hs : starts[i - nn.length]? with
    | none => rw [hs] at hm; simp at hm
    | some s =>
      rw [hs] at hm
      simp only [Option.map_some', Option.some.injEq] at hm
      rw [← hm] at hp
      simp at hp

theorem forest_grown {env : Env σ D} {base : List (Motion σ)} {st : LoopState σ D}
    (hf : Forest base) (hg : Grown env base st) : Forest st.nn := by
  intro i m p hm hp
  rcases Nat.lt_or_ge i base.length with hlt | hge
  · obtain ⟨added, hadd⟩ := hg.ext
    rw [hadd, List.getElem?_append_left hlt] at hm
    exact hf i m p hm hp
  · obtain ⟨p', pm, h1, h2, _⟩ := hg.edges i m hge hm
    rw [h1] at hp
    simp only [Option.some.injEq] at hp
    omega

theorem solve_invalid [LinearOrder D] (env : Env σ D) (P : Planner σ) (starts : List σ)
    (ticks : List (Tick σ D)) (h : seedStarts starts P.nn = []) :
    solve env P starts ticks =
      some { status := .INVALID_START, planner := { P with nn := [] }, registered := none,
             trace := [] } := by
  unfold solve
  simp [h]

theorem solve_run [LinearOrder D] {env : Env σ D} (hn : NearestOk env) {P : Planner σ}
    (hP : Forest P.nn) (starts : List σ) (ticks : List (Tick σ D))
    (hne : seedStarts starts P.nn ≠ []) :
    ∃ st : LoopState σ D,
      growLoop env ticks (initLoop (seedStarts starts P.nn)) = some st ∧
      Grown env (seedStarts starts P.nn) st ∧ Forest st.nn ∧
      ((Searching env (seedStarts starts P.nn) st ∧ st.approxsol = none ∧
          solve env P starts ticks =
            some { status := .result false true,
                   planner := { nn := st.nn, lastGoalMotion := P.lastGoalMotion,
                                sampler := true },
                   registered := none, trace := st.trace }) ∨
       (Searching env (seedStarts starts P.nn) st ∧
          ∃ (j : Nat) (mp : List (Motion σ)), st.approxsol = some j ∧
            mpath st.nn st.nn.length (some j) = some mp ∧
            solve env P starts ticks =
              some { status := .result true true,
                     planner := { nn := st.nn, lastGoalMotion := some j, sampler := true },
                     registered := some { path := pathStates mp, approximate := true,
                                          difference := st.approxdif },
                     trace := st.trace }) ∨
       (Found env (seedStarts starts P.nn) st ∧
          ∃ (g : Nat) (mp : List (Motion σ)), st.solution = some g ∧
            mpath st.nn st.nn.length (some g) = some mp ∧
            solve env P starts ticks =
              some { status := .result true false,
                     planner := { nn := st.nn, lastGoalMotion := some g, sampler := true },
                     registered := some { path := pathStates mp, approximate := false,
                                          difference := st.approxdif },
                     trace := st.trace })) := by
  obtain ⟨st, hloop⟩ := growLoop_total hn ticks (initLoop (seedStarts starts P.nn))
    (by simpa [initLoop] using hne)
  obtain ⟨hg, hcase⟩ := growLoop_spec ticks (grown_init env _) (searching_init env _) hloop
  have hf : Forest st.nn := forest_grown (forest_seed hP starts) hg
  have hlen : ¬ (seedStarts starts P.nn).length = 0 := by
    intro h0
    exact hne (List.length_eq_zero.mp h0)
  refine ⟨st, hloop, hg, hf, ?_⟩
  rcases hcase with hs | hfd
  · cases hap : st.approxsol with
    | none =>
      left
      refine ⟨hs, rfl, ?_⟩
      unfold solve
      simp [hlen, hloop, hs.noSol, hap]
    | some j =>
      right; left
      refine ⟨hs, ?_⟩
      have hj : j < st.nn.length := by
        obtain ⟨mj, _, _, h3, _⟩ := searching_best hs hap
        exact lt_length_of_getElem? h3
      obtain ⟨mp, hmp⟩ := mpath_total hf hj hj
      refine ⟨j, mp, rfl, hmp, ?_⟩
      unfold solve
      simp [hlen, hloop, hs.noSol, hap, hmp]
  · right; right
    refine ⟨hfd, ?_⟩
    obtain ⟨g, mg, hsol, _, hmg, _⟩ := hfd.sol
    have hgl := lt_length_of_getElem? hmg
    obtain ⟨mp, hmp⟩ := mpath_total hf hgl hgl
    refine ⟨g, mp, hsol, hmp, ?_⟩
    unfold solve
    simp [hlen, hloop, hsol, hmp]

theorem nearestOk_envW : NearestOk envW := by
  intro nn q h
  cases nn with
  | nil => exact absurd rfl h
  | cons a l => simp [envW]

theorem forest_nil : Forest ([] : List (Motion σ)) := by
  intro i m p hm
  simp at hm

theorem seedStarts_length (starts : List σ) (nn : List (Motion σ)) :
    (seedStarts starts nn).length = nn.length + starts.length := by
  rw [seedStarts_eq]
  simp

theorem pathStates_getLast? (m : Motion σ) (rest : List (Motion σ)) :
    (pathStates (m :: rest)).getLast? = some m.state := by
  simp [pathStates]

theorem pathStates_head? (mp : List (Motion σ)) (r : Motion σ) (h : mp.getLast? = some r) :
    (pathStates mp).head? = some r.state := by
  simp [pathStates, List.head?_map, List.head?_reverse, h]

theorem path_chain {nn : List (Motion σ)} {fuel j : Nat} {mp : List (Motion σ)}
    {mj : Motion σ} (hmp : mpath nn fuel (some j) = some mp) (hmj : nn[j]? = some mj) :
    ∃ chain : List (Motion σ), pathStates mp = chain.map Motion.state ∧
      chain.getLast? = some mj ∧
      (∃ r : Motion σ, chain.head? = some r ∧ r.parent = none) ∧
      List.Chain' (fun par child => ChildOf nn child par) chain := by
  obtain ⟨m', rest, hmp', hm', hchain, _, ⟨r, hlast, hroot⟩, _⟩ := mpath_spec hmp
  rw [hmj] at hm'
  simp only [Option.some.injEq] at hm'
  subst hm'
  refine ⟨mp.reverse, rfl, ?_, ⟨r, ?_, hroot⟩, ?_⟩
  · rw [List.getLast?_reverse, hmp']; rfl
  · rw [List.head?_reverse]; exact hlast
  · rw [List.chain'_reverse]; exact hchain

/-- C1: whenever a Motion inserted by the loop of `solve` satisfies the goal test, also
after approximate candidates were recorded, `solve` returns `solved = true` and
`approximate = false`, the registered path ends at that Motion's configuration (it runs
over the Motion's parent chain from a parentless Motion down to it) and the registered
distance is that Motion's goal distance. -/
theorem solve_exact_solution [LinearOrder D] (env : Env σ D) (hn : NearestOk env)
    (P : Planner σ) (hP : Forest P.nn) (starts : List σ) (ticks : List (Tick σ D)) :
    ∃ out : Outcome σ D, solve env P starts ticks = some out ∧
      ∀ (i : Nat) (m : Motion σ), P.nn.length + starts.length ≤ i →
        out.planner.nn[i]? = some m → goalSat env m.state = true →
        out.status = .result true false ∧
        ∃ sp : SolutionPath σ D, out.registered = some sp ∧ sp.approximate = false ∧
          sp.path.getLast? = some m.state ∧ sp.difference = goalDist env m.state ∧
          ∃ chain : List (Motion σ), sp.path = chain.map Motion.state ∧
            chain.getLast? = some m ∧
            (∃ r : Motion σ, chain.head? = some r ∧ r.parent = none) ∧
            List.Chain' (fun par child => ChildOf out.planner.nn child par) chain := by
  by_cases hne : seedStarts starts P.nn = []
  · refine ⟨_, solve_invalid env P starts ticks hne, ?_⟩
    intro i m _ hm
    simp at hm
  · obtain ⟨st, _, hg, _, hcase⟩ := solve_run hn hP starts ticks hne
    have hbase := seedStarts_length starts P.nn
    rcases hcase with ⟨hs, _, hsolve⟩ | ⟨hs, _, _, _, _, hsolve⟩ | ⟨hfd, g, mp, hsol, hmp, hsolve⟩
    · refine ⟨_, hsolve, ?_⟩
      intro i m hi hm hsat
      rw [hs.unsat i m (by omega) hm] at hsat
      exact absurd hsat (by simp)
    · refine ⟨_, hsolve, ?_⟩
      intro i m hi hm hsat
      rw [hs.unsat i m (by omega) hm] at hsat
      exact absurd hsat (by simp)
    · refine ⟨_, hsolve, ?_⟩
      intro i m hi hm hsat
      obtain ⟨g', mg, hsol', _, hmg, hlen, _, hdif⟩ := hfd.sol
      rw [hsol] at hsol'
      simp only [Option.some.injEq] at hsol'
      subst hsol'
      have hig : i = g := by
        by_contra hne'
        have hlt := lt_length_of_getElem? hm
        have hun := hfd.unsat i m (by omega) (by simp only at hlt; omega) hm
        rw [hun] at hsat
        exact absurd hsat (by simp)
      subst hig
      simp only at hm
      rw [hmg] at hm
      simp only [Option.some.injEq] at hm
      subst hm
      obtain ⟨chain, hc1, hc2, hc3, hc4⟩ := path_chain hmp hmg
      obtain ⟨m', rest, hmp', hm', _⟩ := mpath_spec hmp
      rw [hmg] at hm'
      simp only [Option.some.injEq] at hm'
      subst hm' hmp'
      exact ⟨rfl, _, rfl, rfl, pathStates_getLast? _ _, hdif, chain, hc1, hc2, hc3, hc4⟩

theorem solve_exact_solution_witness :
    NearestOk envW ∧ Forest emptyPlanner.nn ∧
    ∃ out : Outcome Nat Nat, solve envW emptyPlanner [0] ticksExact = some out ∧
      out.planner.nn[4]? = some { state := 10, parent := some 3 } ∧
      goalSat envW 10 = true ∧ out.status = .result true false ∧
      ∃ sp : SolutionPath Nat Nat, out.registered = some sp ∧ sp.approximate = false ∧
        sp.path.getLast? = some 10 ∧ sp.difference = .fin 0 ∧
        ∃ chain : List (Motion Nat), sp.path = chain.map Motion.state ∧
          chain.getLast? = some { state := 10, parent := some 3 } ∧
          (∃ r : Motion Nat, chain.head? = some r ∧ r.parent = none) ∧
          List.Chain' (fun par child => ChildOf out.planner.nn child par) chain := by
  refine ⟨nearestOk_envW, forest_nil, ?_⟩
  obtain ⟨out, hout, h⟩ :=
    solve_exact_solution envW nearestOk_envW emptyPlanner forest_nil [0] ticksExact
  have hrun : (solve envW emptyPlanner [0] ticksExact).map (fun o => o.planner.nn[4]?) =
      some (some { state := 10, parent := some 3 }) := by decide
  rw [hout] at hrun
  simp only [Option.map_some', Option.some.injEq] at hrun
  exact ⟨out, hout, hrun, by decide, h 4 _ (by decide) hrun (by decide)⟩

theorem forall_getElem?_of_all {α : Type} (l : List α) (n : Nat) (p : α → Bool)
    (h : (l.drop n).all p = true) :
    ∀ (i : Nat) (m : α), n ≤ i → l[i]? = some m → p m = true := by
  intro i m hi hm
  have hmem : m ∈ l.drop n := by
    rw [List.mem_iff_getElem?]
    refine ⟨i - n, ?_⟩
    rw [List.getElem?_drop]
    have : n + (i - n) = i := by omega
    rw [this]
    exact hm
  exact List.all_eq_true.mp h m hmem

/-- C2 fails as stated: a run from the start 0 inserts the state 3 over a valid edge, no
inserted Motion satisfies the goal, the loop ends on the termination predicate, and the
goal test reports the distance `+infinity` (or NaN). `dist < approxdif` is then false,
`approxsol` stays null, and `solve` returns `solved = false` and registers no path. -/
theorem no_approximate_at_infinite_distance :
    goalSat envInf 3 = false ∧ goalDist envInf 3 = .infinity ∧
    (solve envInf emptyPlanner [0] [tickW 50 3]).map (fun o => (o.status, o.registered)) =
      some (.result false true, none) ∧
    (solve envInf emptyPlanner [0] [tickW 50 3]).map
        (fun o => (o.planner.nn, o.trace.getLast?)) =
      some ([⟨0, none⟩, ⟨3, some 0⟩], some (.ptc true)) ∧
    goalSat envNan 3 = false ∧ goalDist envNan 3 = .nan ∧
    (solve envNan emptyPlanner [0] [tickW 50 3]).map (fun o => (o.status, o.registered)) =
      some (.result false true, none) ∧
    (solve envNan emptyPlanner [0] [tickW 50 3]).map
        (fun o => (o.planner.nn, o.trace.getLast?)) =
      some ([⟨0, none⟩, ⟨3, some 0⟩], some (.ptc true)) ∧
    ¬ ∀ out : Outcome Nat Nat, solve envInf emptyPlanner [0] [tickW 50 3] = some out →
        out.trace.getLast? = some (.ptc true) → 0 + 1 < out.planner.nn.length →
        (∀ (i : Nat) (m : Motion Nat), 0 + 1 ≤ i → out.planner.nn[i]? = some m →
          goalSat envInf m.state = false) →
        out.status = .result true true := by
  refine ⟨rfl, rfl, by decide, by decide, rfl, rfl, by decide, by decide, ?_⟩
  intro h
  have hrun : (solve envInf emptyPlanner [0] [tickW 50 3]).map
      (fun o => (o.status, o.planner.nn, o.trace.getLast?)) =
      some (.result false true, [⟨0, none⟩, ⟨3, some 0⟩], some (.ptc true)) := by decide
  cases hs : solve envInf emptyPlanner [0] [tickW 50 3] with
  | none => rw [hs] at hrun; simp at hrun
  | some out =>
    rw [hs] at hrun
    simp only [Option.map_some', Option.some.injEq, Prod.mk.injEq] at hrun
    obtain ⟨hst, hnn, htr⟩ := hrun
    have hsolved := h out hs htr (by rw [hnn]; decide) (by
      intro i m _ _
      rfl)
    rw [hst] at hsolved
    exact absurd hsolved (by decide)

/-- C2 as amended: in a run of `solve` in which no inserted Motion satisfies the goal
test, (a) if some inserted Motion has a goal distance below `+infinity`, the loop ended
on the termination predicate and `solve` returns `solved = true` and `approximate = true`
and registers the path to the best-found Motion: an inserted Motion with a distance below
`+infinity` that no inserted Motion undercuts; the path runs over its parent chain from a
parentless Motion down to it; (b) if at least one Motion was inserted and every inserted
Motion's goal distance is `+infinity` or NaN, `solve` returns `solved = false` and
registers no path. -/
theorem solve_approximate_solution [LinearOrder D] (env : Env σ D) (hn : NearestOk env)
    (P : Planner σ) (hP : Forest P.nn) (starts : List σ) (ticks : List (Tick σ D)) :
    ∃ out : Outcome σ D, solve env P starts ticks = some out ∧
      ((∀ (i : Nat) (m : Motion σ), P.nn.length + starts.length ≤ i →
          out.planner.nn[i]? = some m → goalSat env m.state = false) →
        ((∃ (i : Nat) (m : Motion σ) (d : D), P.nn.length + starts.length ≤ i ∧
            out.planner.nn[i]? = some m ∧ goalDist env m.state = .fin d) →
          out.trace.getLast? = some (.ptc true) ∧
          out.status = .result true true ∧
          ∃ (sp : SolutionPath σ D) (j : Nat) (mj : Motion σ) (d : D)
            (chain : List (Motion σ)),
            out.registered = some sp ∧ sp.approximate = true ∧
            out.planner.lastGoalMotion = some j ∧
            P.nn.length + starts.length ≤ j ∧ out.planner.nn[j]? = some mj ∧
            goalDist env mj.state = .fin d ∧ sp.difference = .fin d ∧
            (∀ (i : Nat) (m : Motion σ), P.nn.length + starts.length ≤ i →
              out.planner.nn[i]? = some m →
              ExtDist.lt (goalDist env m.state) (.fin d) = false) ∧
            sp.path = chain.map Motion.state ∧ chain.getLast? = some mj ∧
            sp.path.getLast? = some mj.state ∧
            (∃ r : Motion σ, chain.head? = some r ∧ r.parent = none) ∧
            List.Chain' (fun par child => ChildOf out.planner.nn child par) chain) ∧
        (P.nn.length + starts.length < out.planner.nn.length →
          (∀ (i : Nat) (m : Motion σ) (d : D), P.nn.length + starts.length ≤ i →
            out.planner.nn[i]? = some m → goalDist env m.state ≠ .fin d) →
          out.trace.getLast? = some (.ptc true) ∧
          out.status = .result false true ∧ out.registered = none)) := by
  by_cases hne : seedStarts starts P.nn = []
  · refine ⟨_, solve_invalid env P starts ticks hne, ?_⟩
    intro _
    constructor
    · rintro ⟨i, m, d, _, hm, _⟩
      simp at hm
    · intro hlen
      simp at hlen
  · obtain ⟨st, hloop, hg, _, hcase⟩ := solve_run hn hP starts ticks hne
    have hbase := seedStarts_length starts P.nn
    have hptc : st.solution = none → st.trace.getLast? = some (.ptc true) := by
      intro hnone
      rcases growLoop_exit ticks hloop with ⟨_, h2⟩ | ⟨g, _, _, h1, _⟩
      · exact h2
      · rw [hnone] at h1
        exact absurd h1 (by simp)
    rcases hcase with ⟨hs, hap, hsolve⟩ | ⟨hs, j, mp, hap, hmp, hsolve⟩ |
      ⟨hfd, g, mp, hsol, hmp, hsolve⟩
    · refine ⟨_, hsolve, ?_⟩
      intro _
      constructor
      · rintro ⟨i, m, d, hi, hm, hd⟩
        exfalso
        have hb := hs.below i m (by omega) hm
        rcases hs.tracker with ⟨_, hinf⟩ | ⟨j, mj, _, h1, _⟩
        · rw [hinf, hd] at hb
          simp [ExtDist.lt] at hb
        · rw [hap] at h1
          exact absurd h1 (by simp)
      · intro _ _
        exact ⟨hptc hs.noSol, rfl, rfl⟩
    · obtain ⟨mj, d, hbj, hmj, hd, hdif, _⟩ := searching_best hs hap
      obtain ⟨chain, hc1, hc2, hc3, hc4⟩ := path_chain hmp hmj
      obtain ⟨m', rest, hmp', hm', _⟩ := mpath_spec hmp
      rw [hmj] at hm'
      simp only [Option.some.injEq] at hm'
      subst hm'
      refine ⟨_, hsolve, ?_⟩
      intro _
      constructor
      · intro _
        refine ⟨hptc hs.noSol, rfl, _, j, mj, d, chain, rfl, rfl, rfl, by omega, hmj, hd,
          hdif, ?_, hc1, hc2, ?_, hc3, hc4⟩
        · intro i m hi hm
          have := hs.below i m (by omega) hm
          rw [hdif] at this
          exact this
        · simp only
          rw [hmp']
          exact pathStates_getLast? _ _
      · intro _ hnofin
        exact absurd hd (hnofin j mj d (by omega) hmj)
    · refine ⟨_, hsolve, ?_⟩
      intro hun
      exfalso
      obtain ⟨g', mg, _, hbg, hmg, _, hsat, _⟩ := hfd.sol
      have := hun g' mg (by omega) hmg
      rw [this] at hsat
      exact absurd hsat (by simp)

theorem solve_approximate_solution_witness :
    NearestOk envW ∧ Forest emptyPlanner.nn ∧
    (∃ out : Outcome Nat Nat, solve envW emptyPlanner [0] ticksApprox = some out ∧
      (∀ (i : Nat) (m : Motion Nat), 1 ≤ i → out.planner.nn[i]? = some m →
        goalSat envW m.state = false) ∧
      out.planner.nn[1]? = some ⟨3, some 0⟩ ∧ goalDist envW 3 = .fin 7 ∧
      out.registered =
        some { path := [0, 3, 8], approximate := true, difference := .fin 2 } ∧
      out.trace.getLast? = some (.ptc true) ∧
      out.status = .result true true ∧
      ∃ (sp : SolutionPath Nat Nat) (j : Nat) (mj : Motion Nat) (d : Nat)
        (chain : List (Motion Nat)),
        out.registered = some sp ∧ sp.approximate = true ∧
        out.planner.lastGoalMotion = some j ∧
        0 + 1 ≤ j ∧ out.planner.nn[j]? = some mj ∧
        goalDist envW mj.state = .fin d ∧ sp.difference = .fin d ∧
        (∀ (i : Nat) (m : Motion Nat), 0 + 1 ≤ i →
          out.planner.nn[i]? = some m →
          ExtDist.lt (goalDist envW m.state) (.fin d) = false) ∧
        sp.path = chain.map Motion.state ∧ chain.getLast? = some mj ∧
        sp.path.getLast? = some mj.state ∧
        (∃ r : Motion Nat, chain.head? = some r ∧ r.parent = none) ∧
        List.Chain' (fun par child => ChildOf out.planner.nn child par) chain) ∧
    (∃ out : Outcome Nat Nat, solve envInf emptyPlanner [0] ticksApprox = some out ∧
      0 + 1 < out.planner.nn.length ∧
      out.trace.getLast? = some (.ptc true) ∧
      out.status = .result false true ∧ out.registered = none) := by
  refine ⟨nearestOk_envW, forest_nil, ?_, ?_⟩
  · obtain ⟨out, hout, h⟩ :=
      solve_approximate_solution envW nearestOk_envW emptyPlanner forest_nil [0] ticksApprox
    have hrun : (solve envW emptyPlanner [0] ticksApprox).map
        (fun o => (o.planner.nn, o.registered)) =
        some ([⟨0, none⟩, ⟨3, some 0⟩, ⟨8, some 1⟩, ⟨2, some 2⟩, ⟨12, some 3⟩],
          some { path := [0, 3, 8], approximate := true, difference := .fin 2 }) := by
      decide
    rw [hout] at hrun
    simp only [Option.map_some', Option.some.injEq, Prod.mk.injEq] at hrun
    obtain ⟨hnn, hreg⟩ := hrun
    have hun : ∀ (i : Nat) (m : Motion Nat), 1 ≤ i → out.planner.nn[i]? = some m →
        goalSat envW m.state = false := by
      intro i m hi hm
      have := forall_getElem?_of_all out.planner.nn 1 (fun m => !goalSat envW m.state)
        (by rw [hnn]; decide) i m hi hm
      simpa using this
    have h1 : out.planner.nn[1]? = some ⟨3, some 0⟩ := by rw [hnn]; rfl
    have hfin : goalDist envW 3 = .fin 7 := by decide
    obtain ⟨h2, h3, h4⟩ := (h hun).1 ⟨1, ⟨3, some 0⟩, 7, by decide, h1, hfin⟩
    exact ⟨out, hout, hun, h1, hfin, hreg, h2, h3, h4⟩
  · obtain ⟨out, hout, h⟩ :=
      solve_approximate_solution envInf nearestOk_envW emptyPlanner forest_nil [0]
        ticksApprox
    have hrun : (solve envInf emptyPlanner [0] ticksApprox).map
        (fun o => o.planner.nn.length) = some 5 := by decide
    rw [hout] at hrun
    simp only [Option.map_some', Option.some.injEq] at hrun
    have hlen : 0 + 1 < out.planner.nn.length := by rw [hrun]; decide
    have hun : ∀ (i : Nat) (m : Motion Nat), 0 + 1 ≤ i → out.planner.nn[i]? = some m →
        goalSat envInf m.state = false := fun _ _ _ _ => rfl
    exact ⟨out, hout, hlen,
      (h hun).2 hlen (fun i m d _ _ hd => by simp [goalDist, envInf] at hd)⟩

theorem seed_roots {starts : List σ} {j : Nat} {m : Motion σ}
    (h : (seedStarts starts ([] : List (Motion σ)))[j]? = some m) :
    m.parent = none ∧ m.state ∈ starts := by
  rw [seedStarts_eq, List.nil_append, List.getElem?_map] at h
  cases hs : starts[j]? with
  | none => rw [hs] at h; simp at h
  | some s =>
    rw [hs] at h
    simp only [Option.map_some', Option.some.injEq] at h
    subst h
    exact ⟨rfl, List.getElem?_mem hs⟩

theorem grown_old {env : Env σ D} {base : List (Motion σ)} {st : LoopState σ D}
    (hg : Grown env base st) {j : Nat} (hj : j < base.length) : st.nn[j]? = base[j]? := by
  obtain ⟨added, hadd⟩ := hg.ext
  rw [hadd, List.getElem?_append_left hj]

theorem path_valid_of_grown {env : Env σ D} {starts : List σ} {st : LoopState σ D}
    (hg : Grown env (seedStarts starts []) st) {g fuel : Nat} {mp : List (Motion σ)}
    (hmp : mpath st.nn fuel (some g) = some mp) :
    (∃ s ∈ starts, (pathStates mp).head? = some s) ∧
    List.Chain' (fun a b => env.checkMotion a b = true ∧
      Event.checkMotion a b true ∈ st.trace) (pathStates mp) := by
  obtain ⟨m, rest, _, _, hchain, hmem, ⟨r, hlast, hroot⟩, _⟩ := mpath_spec hmp
  have hrootOf : ∀ (j : Nat) (x : Motion σ), st.nn[j]? = some x →
      j < (seedStarts starts ([] : List (Motion σ))).length →
      x.parent = none ∧ x.state ∈ starts := by
    intro j x hx hj
    rw [grown_old hg hj] at hx
    exact seed_roots hx
  constructor
  · obtain ⟨j, hj⟩ := hmem r (List.mem_of_mem_getLast? hlast)
    rcases Nat.lt_or_ge j (seedStarts starts ([] : List (Motion σ))).length with hlt | hge
    · exact ⟨r.state, (hrootOf j r hj hlt).2, pathStates_head? mp r hlast⟩
    · obtain ⟨p, _, hp, _⟩ := hg.edges j r hge hj
      rw [hroot] at hp
      exact absurd hp (by simp)
  · unfold pathStates
    rw [List.chain'_map, List.chain'_reverse]
    refine List.Chain'.imp ?_ hchain
    intro child par hcp
    obtain ⟨j, p, hj, hp, hpar⟩ := hcp
    rcases Nat.lt_or_ge j (seedStarts starts ([] : List (Motion σ))).length with hlt | hge
    · rw [(hrootOf j child hj hlt).1] at hp
      exact absurd hp (by simp)
    · obtain ⟨p', pm, hp', _, hpm, hcheck, hev⟩ := hg.edges j child hge hj
      rw [hp] at hp'
      simp only [Option.some.injEq] at hp'
      subst hp'
      rw [hpar] at hpm
      simp only [Option.some.injEq] at hpm
      subst hpm
      exact ⟨hcheck, hev⟩

/-- C4: when `solve`, called on an empty tree, registers a path, its first configuration
is one of the start configurations seeded in this call, and for every consecutive pair
(a, b) of the path the edge check on (a, b) was made during the run and answered true. -/
theorem solve_path_valid [LinearOrder D] (env : Env σ D) (hn : NearestOk env)
    (P : Planner σ) (hP : P.nn = []) (starts : List σ) (ticks : List (Tick σ D)) :
    ∃ out : Outcome σ D, solve env P starts ticks = some out ∧
      ∀ sp : SolutionPath σ D, out.registered = some sp →
        (∃ s ∈ starts, sp.path.head? = some s) ∧
        List.Chain' (fun a b => env.checkMotion a b = true ∧
          Event.checkMotion a b true ∈ out.trace) sp.path := by
  have hF : Forest P.nn := by rw [hP]; exact forest_nil
  by_cases hne : seedStarts starts P.nn = []
  · refine ⟨_, solve_invalid env P starts ticks hne, ?_⟩
    intro sp hsp
    simp at hsp
  · obtain ⟨st, _, hg, _, hcase⟩ := solve_run hn hF starts ticks hne
    rw [hP] at hg
    rcases hcase with ⟨_, _, hsolve⟩ | ⟨_, j, mp, _, hmp, hsolve⟩ | ⟨_, g, mp, _, hmp, hsolve⟩
    · refine ⟨_, hsolve, ?_⟩
      intro sp hsp
      simp at hsp
    · refine ⟨_, hsolve, ?_⟩
      intro sp hsp
      simp only [Option.some.injEq] at hsp
      subst hsp
      exact path_valid_of_grown hg hmp
    · refine ⟨_, hsolve, ?_⟩
      intro sp hsp
      simp only [Option.some.injEq] at hsp
      subst hsp
      exact path_valid_of_grown hg hmp

theorem solve_path_valid_witness :
    NearestOk envW ∧ emptyPlanner.nn = [] ∧
    ∃ out : Outcome Nat Nat, solve envW emptyPlanner [0] ticksExact = some out ∧
      out.registered = some { path := [0, 3, 8, 2, 10], approximate := false,
                              difference := .fin 0 } ∧
      ∀ sp : SolutionPath Nat Nat, out.registered = some sp →
        (∃ s ∈ [0], sp.path.head? = some s) ∧
        List.Chain' (fun a b => envW.checkMotion a b = true ∧
          Event.checkMotion a b true ∈ out.trace) sp.path := by
  refine ⟨nearestOk_envW, rfl, ?_⟩
  obtain ⟨out, hout, h⟩ :=
    solve_path_valid envW nearestOk_envW emptyPlanner rfl [0] ticksExact
  have hrun : (solve envW emptyPlanner [0] ticksExact).map (fun o => o.registered) =
      some (some { path := [0, 3, 8, 2, 10], approximate := false,
                   difference := .fin 0 }) := by decide
  rw [hout] at hrun
  simp only [Option.map_some', Option.some.injEq] at hrun
  exact ⟨out, hout, hrun, h⟩

theorem forest_treeW : Forest treeW := by
  intro i m p hm hp
  unfold treeW at hm
  rcases i with _ | _ | _ | _ | _ | i <;> simp at hm <;> subst hm <;> simp at hp <;> omega

/-- C5: for a Motion of a tree whose parent pointers refer to earlier Motions, path
reconstruction returns the configurations of its parent chain from the root down: the
chain starts at a Motion without parent, ends at the terminal Motion, every later element
is a Motion of the tree whose parent is the element before it, and the number of
configurations is the depth of the terminal Motion plus one. -/
theorem mpath_root_to_terminal (nn : List (Motion σ)) (hf : Forest nn) (g : Nat)
    (m : Motion σ) (hm : nn[g]? = some m) :
    ∃ (mp chain : List (Motion σ)) (d : Nat),
      mpath nn nn.length (some g) = some mp ∧ chain = mp.reverse ∧
      pathStates mp = chain.map Motion.state ∧
      (∃ r : Motion σ, chain.head? = some r ∧ r.parent = none ∧
        (pathStates mp).head? = some r.state) ∧
      chain.getLast? = some m ∧ (pathStates mp).getLast? = some m.state ∧
      List.Chain' (fun par child => ChildOf nn child par) chain ∧
      depth nn nn.length g = some d ∧ (pathStates mp).length = d + 1 := by
  have hg := lt_length_of_getElem? hm
  obtain ⟨mp, hmp⟩ := mpath_total hf hg hg
  obtain ⟨m', rest, hmp', hm', hchain, _, ⟨r, hlast, hroot⟩, ⟨d, hd, hlen⟩⟩ := mpath_spec hmp
  rw [hm] at hm'
  simp only [Option.some.injEq] at hm'
  subst hm'
  refine ⟨mp, mp.reverse, d, hmp, rfl, rfl, ⟨r, ?_, hroot, pathStates_head? mp r hlast⟩,
    ?_, ?_, ?_, hd, ?_⟩
  · rw [List.head?_reverse]; exact hlast
  · rw [List.getLast?_reverse, hmp']; rfl
  · rw [hmp']; exact pathStates_getLast? _ _
  · rw [List.chain'_reverse]; exact hchain
  · simp [pathStates, hlen]

theorem mpath_root_to_terminal_witness :
    Forest treeW ∧ treeW[3]? = some ⟨8, some 2⟩ ∧
    (mpath treeW treeW.length (some 3)).map pathStates = some [1, 3, 8] ∧
    depth treeW treeW.length 3 = some 2 ∧
    ∃ (mp chain : List (Motion Nat)) (d : Nat),
      mpath treeW treeW.length (some 3) = some mp ∧ chain = mp.reverse ∧
      pathStates mp = chain.map Motion.state ∧
      (∃ r : Motion Nat, chain.head? = some r ∧ r.parent = none ∧
        (pathStates mp).head? = some r.state) ∧
      chain.getLast? = some ⟨8, some 2⟩ ∧ (pathStates mp).getLast? = some 8 ∧
      List.Chain' (fun par child => ChildOf treeW child par) chain ∧
      depth treeW treeW.length 3 = some d ∧ (pathStates mp).length = d + 1 :=
  ⟨forest_treeW, rfl, by decide, by decide,
    mpath_root_to_terminal treeW forest_treeW 3 ⟨8, some 2⟩ rfl⟩

/-- C6: with an empty tree and no start configuration `solve` returns `INVALID_START`
at once: nothing is sampled, no edge check and no goal test is made (the trace of
collaborator calls is empty), no path is registered and the tree is still empty. -/
theorem solve_no_start [LinearOrder D] (env : Env σ D) (lastGoal : Option Nat)
    (sampler : Bool) (ticks : List (Tick σ D)) :
    solve env { nn := [], lastGoalMotion := lastGoal, sampler := sampler } [] ticks =
      some { status := .INVALID_START,
             planner := { nn := [], lastGoalMotion := lastGoal, sampler := sampler },
             registered := none, trace := [] } := by
  rfl

/-- C7: on an empty tree with at least one start configuration, when every edge check
answers false, `solve` ends on the termination predicate and returns `solved = false`;
the tree holds exactly one parentless Motion per start and no path is registered. -/
theorem solve_no_valid_edge [LinearOrder D] (env : Env σ D) (hn : NearestOk env)
    (P : Planner σ) (hP : P.nn = []) (starts : List σ) (hs : starts ≠ [])
    (hc : ∀ a b : σ, env.checkMotion a b = false) (ticks : List (Tick σ D)) :
    ∃ out : Outcome σ D, solve env P starts ticks = some out ∧
      out.status = .result false true ∧
      out.planner.nn = starts.map (fun s => { state := s, parent := none }) ∧
      out.registered = none ∧ out.trace.getLast? = some (.ptc true) := by
  have hF : Forest P.nn := by rw [hP]; exact forest_nil
  have hne : seedStarts starts P.nn ≠ [] := by
    rw [seedStarts_eq, hP]
    simpa using hs
  obtain ⟨st, hloop, hg, _, hcase⟩ := solve_run hn hF starts ticks hne
  have hnone : ∀ (i : Nat) (m : Motion σ), (seedStarts starts P.nn).length ≤ i →
      st.nn[i]? = some m → False := by
    intro i m hi hm
    obtain ⟨p, pm, _, _, _, hcheck, _⟩ := hg.edges i m hi hm
    rw [hc] at hcheck
    exact absurd hcheck (by simp)
  rcases hcase with ⟨hsr, _, hsolve⟩ | ⟨hsr, j, mp, hap, _, _⟩ | ⟨hfd, _⟩
  · refine ⟨_, hsolve, rfl, ?_, rfl, ?_⟩
    · obtain ⟨added, hadd⟩ := hg.ext
      have hempty : added = [] := by
        cases added with
        | nil => rfl
        | cons a l =>
          exfalso
          refine hnone (seedStarts starts P.nn).length a (le_refl _) ?_
          rw [hadd, List.getElem?_append_right (le_refl _)]
          simp
      simp only
      rw [hadd, hempty, seedStarts_eq, hP]
      simp
    · rcases growLoop_exit ticks hloop with ⟨_, h2⟩ | ⟨g, _, _, h1, _⟩
      · exact h2
      · rw [hsr.noSol] at h1
        exact absurd h1 (by simp)
  · exfalso
    obtain ⟨mj, _, hbj, hmj, _⟩ := searching_best hsr hap
    exact hnone j mj hbj hmj
  · exfalso
    obtain ⟨g, mg, _, hbg, hmg, _⟩ := hfd.sol
    exact hnone g mg hbg hmg

theorem solve_no_valid_edge_witness :
    NearestOk envBlocked ∧ emptyPlanner.nn = [] ∧ [0, 1] ≠ ([] : List Nat) ∧
    (∀ a b : Nat, envBlocked.checkMotion a b = false) ∧
    ∃ out : Outcome Nat Nat, solve envBlocked emptyPlanner [0, 1] ticksApprox = some out ∧
      out.status = .result false true ∧
      out.planner.nn = [⟨0, none⟩, ⟨1, none⟩] ∧
      out.registered = none ∧ out.trace.getLast? = some (.ptc true) :=
  ⟨nearestOk_envW, rfl, by decide, fun _ _ => rfl,
    solve_no_valid_edge envBlocked nearestOk_envW emptyPlanner rfl [0, 1] (by decide)
      (fun _ _ => rfl) ticksApprox⟩

theorem depth_total {nn : List (Motion σ)} (hf : Forest nn) {fuel i : Nat}
    (hi : i < nn.length) (hfuel : i < fuel) : ∃ d : Nat, depth nn fuel i = some d ∧ d ≤ i := by
  obtain ⟨mp, hmp⟩ := mpath_total hf hi hfuel
  obtain ⟨_, _, _, _, _, _, _, ⟨d, hd, _⟩⟩ := mpath_spec hmp
  exact ⟨d, hd, depth_le hf hd⟩

theorem forest_wellRooted {nn : List (Motion σ)} (hf : Forest nn) {i : Nat} {m : Motion σ}
    (hm : nn[i]? = some m) : WellRooted nn i m := by
  have hi := lt_length_of_getElem? hm
  constructor
  · cases hp : m.parent with
    | none => exact Or.inl rfl
    | some p =>
      right
      have hlt := hf i m p hm hp
      exact ⟨p, nn[p], rfl, List.getElem?_eq_getElem (by omega)⟩
  · obtain ⟨d, hd, hle⟩ := depth_total hf hi hi
    exact ⟨d, hd, by omega⟩

/-- C8 (forest invariant): starting from an empty tree, after the seed phase, after any
number of loop iterations (the loop run on any list of ticks) and when `solve` returns,
every Motion of the tree has no parent or a parent in the tree, and following parent
pointers from it reaches a parentless Motion within as many steps as the tree has
Motions. -/
theorem forest_invariant [LinearOrder D] (env : Env σ D) (hn : NearestOk env)
    (P : Planner σ) (hP : P.nn = []) (starts : List σ) (ticks : List (Tick σ D)) :
    (∀ (i : Nat) (m : Motion σ), (seedStarts starts P.nn)[i]? = some m →
      WellRooted (seedStarts starts P.nn) i m) ∧
    (starts ≠ [] → ∃ st : LoopState σ D,
      growLoop env ticks (initLoop (seedStarts starts P.nn)) = some st ∧
      ∀ (i : Nat) (m : Motion σ), st.nn[i]? = some m → WellRooted st.nn i m) ∧
    (∃ out : Outcome σ D, solve env P starts ticks = some out ∧
      ∀ (i : Nat) (m : Motion σ), out.planner.nn[i]? = some m →
        WellRooted out.planner.nn i m) := by
  have hF : Forest P.nn := by rw [hP]; exact forest_nil
  refine ⟨fun i m hm => forest_wellRooted (forest_seed hF starts) hm, ?_, ?_⟩
  · intro hs
    have hne : seedStarts starts P.nn ≠ [] := by
      rw [seedStarts_eq, hP]
      simpa using hs
    obtain ⟨st, hloop, _, hf, _⟩ := solve_run hn hF starts ticks hne
    exact ⟨st, hloop, fun i m hm => forest_wellRooted hf hm⟩
  · by_cases hne : seedStarts starts P.nn = []
    · refine ⟨_, solve_invalid env P starts ticks hne, ?_⟩
      intro i m hm
      simp at hm
    · obtain ⟨st, _, _, hf, hcase⟩ := solve_run hn hF starts ticks hne
      rcases hcase with ⟨_, _, hsolve⟩ | ⟨_, _, _, _, _, hsolve⟩ | ⟨_, _, _, _, _, hsolve⟩
      · exact ⟨_, hsolve, fun i m hm => forest_wellRooted hf hm⟩
      · exact ⟨_, hsolve, fun i m hm => forest_wellRooted hf hm⟩
      · exact ⟨_, hsolve, fun i m hm => forest_wellRooted hf hm⟩

theorem forest_invariant_witness :
    NearestOk envW ∧ emptyPlanner.nn = [] ∧ [0, 1] ≠ ([] : List Nat) ∧
    (∃ st : LoopState Nat Nat,
      growLoop envW ticksApprox (initLoop (seedStarts [0, 1] emptyPlanner.nn)) = some st ∧
      st.nn = [⟨0, none⟩, ⟨1, none⟩, ⟨3, some 1⟩, ⟨8, some 2⟩, ⟨2, some 3⟩, ⟨12, some 4⟩] ∧
      ∀ (i : Nat) (m : Motion Nat), st.nn[i]? = some m → WellRooted st.nn i m) := by
  refine ⟨nearestOk_envW, rfl, by decide, ?_⟩
  obtain ⟨st, hst, h⟩ :=
    (forest_invariant envW nearestOk_envW emptyPlanner rfl [0, 1] ticksApprox).2.1 (by decide)
  have hrun : (growLoop envW ticksApprox (initLoop (seedStarts [0, 1] emptyPlanner.nn))).map
      (fun s => s.nn) =
      some [⟨0, none⟩, ⟨1, none⟩, ⟨3, some 1⟩, ⟨8, some 2⟩, ⟨2, some 3⟩, ⟨12, some 4⟩] := by
    decide
  rw [hst] at hrun
  simp only [Option.map_some', Option.some.injEq] at hrun
  exact ⟨st, hst, hrun, h⟩

theorem extDist_le_refl [LinearOrder D] (a : ExtDist D) : ExtDist.le a a :=
  Or.inl rfl

theorem extDist_le_of_lt [LinearOrder D] {a b : ExtDist D}
    (h : ExtDist.lt a b = true) : ExtDist.le a b :=
  Or.inr h

/-- C9 fails as stated: in a run from the start 0 the first iteration inserts the state 9
(not a goal state, distance 1) and the second inserts 15 (a goal state, distance 5);
`approxdif` is 1 after the first iteration and 5 after the second. -/
theorem approxdif_increases_on_exact :
    ∃ st1 st2 : LoopState Nat Nat,
      growLoop envC [tickW 50 9] (initLoop (seedStarts [0] [])) = some st1 ∧
      growLoop envC [tickW 50 9, tickW 50 15] (initLoop (seedStarts [0] [])) = some st2 ∧
      st1.approxdif = .fin 1 ∧ st2.approxdif = .fin 5 ∧
      ¬ ExtDist.le st2.approxdif st1.approxdif ∧
      (solve envC emptyPlanner [0] [tickW 50 9, tickW 50 15]).map (fun o => o.registered) =
        some (some { path := [0, 9, 15], approximate := false, difference := .fin 5 }) := by
  refine ⟨_, _, rfl, rfl, rfl, rfl, ?_, by decide⟩
  simp [ExtDist.le, growLoop, iterate, sample, envC, tickW, initLoop, seedStarts,
    ExtDist.lt]

/-- C9 as amended: a loop iteration that does not leave through `break` (no Motion was
inserted, or the inserted Motion fails the goal test) leaves `approxdif` at most what it
was; the iteration that finds a Motion satisfying the goal overwrites `approxdif` with
that Motion's goal distance. -/
theorem approxdif_monotone_unless_exact [LinearOrder D] (env : Env σ D) (t : Tick σ D)
    (st st' : LoopState σ D) (b : Bool) (h : iterate env t st = some (st', b)) :
    (b = false → ExtDist.le st'.approxdif st.approxdif) ∧
    (b = true → goalSat env (sample env t).1 = true ∧
      st'.approxdif = goalDist env (sample env t).1) := by
  obtain ⟨nm, _, hcase⟩ := iterate_cases h
  rcases hcase with ⟨_, hb, rfl⟩ | ⟨_, _, _, hcase⟩
  · subst hb
    exact ⟨fun _ => extDist_le_refl _, fun hb => absurd hb (by simp)⟩
  · rcases hcase with ⟨hsat, hb, _, _, hdif⟩ | ⟨_, hb, habove, _, _, hdif⟩ |
      ⟨_, hb, _, _, _, hdif⟩
    · subst hb
      exact ⟨fun hb => absurd hb (by simp), fun _ => ⟨hsat, hdif⟩⟩
    · subst hb
      refine ⟨fun _ => ?_, fun hb => absurd hb (by simp)⟩
      rw [hdif]
      exact extDist_le_of_lt habove
    · subst hb
      refine ⟨fun _ => ?_, fun hb => absurd hb (by simp)⟩
      rw [hdif]
      exact extDist_le_refl _

theorem approxdif_monotone_unless_exact_witness :
    iterate envC (tickW 50 7) stC = some (stC7, false) ∧
    ExtDist.le stC7.approxdif stC.approxdif ∧
    iterate envC (tickW 50 15) stC = some (stC15, true) ∧
    stC15.approxdif = goalDist envC (sample envC (tickW 50 15)).1 :=
  ⟨by decide,
    (approxdif_monotone_unless_exact envC (tickW 50 7) stC stC7 false (by decide)).1 rfl,
    by decide,
    ((approxdif_monotone_unless_exact envC (tickW 50 15) stC stC15 true (by decide)).2 rfl).2⟩

theorem reportMotion_spec {nn : List (Motion σ)} {m : Motion σ} {x : DataItem σ}
    (h : reportMotion nn m = some x) :
    (m.parent = none → x = .startVertex m.state) ∧
    (∀ p : Nat, m.parent = some p →
      ∃ pm : Motion σ, nn[p]? = some pm ∧ x = .edge pm.state m.state) ∧
    isStartVertex x = isRoot m ∧ isEdge x = !isRoot m ∧ isGoalVertex x = false := by
  unfold reportMotion at h
  split at h
  · rename_i hp
    simp only [Option.some.injEq] at h
    subst h
    simp [hp, isStartVertex, isEdge, isGoalVertex, isRoot]
  · rename_i p hp
    split at h
    · exact absurd h (by simp)
    · rename_i pm hpm
      simp only [Option.some.injEq] at h
      subst h
      refine ⟨fun h0 => absurd h0 (by simp [hp]), ?_, ?_⟩
      · intro p' hp'
        rw [hp] at hp'
        simp only [Option.some.injEq] at hp'
        subst hp'
        exact ⟨pm, hpm, rfl⟩
      · simp [hp, isStartVertex, isEdge, isGoalVertex, isRoot]

theorem reportMotions_spec {nn ms : List (Motion σ)} {items : List (DataItem σ)}
    (h : reportMotions nn ms = some items) :
    items.length = ms.length ∧
    (∀ (i : Nat) (m : Motion σ), ms[i]? = some m →
      ∃ x : DataItem σ, items[i]? = some x ∧ reportMotion nn m = some x) ∧
    items.countP isStartVertex = ms.countP isRoot ∧
    items.countP isEdge = ms.countP (fun m => !isRoot m) ∧
    items.countP isGoalVertex = 0 := by
  induction ms generalizing items with
  | nil =>
    simp only [reportMotions, Option.some.injEq] at h
    subst h
    simp
  | cons m ms ih =>
    simp only [reportMotions] at h
    split at h
    · rename_i x xs hx hxs
      simp only [Option.some.injEq] at h
      subst h
      obtain ⟨hlen, hget, hs, he, hgv⟩ := ih hxs
      obtain ⟨_, _, h1, h2, h3⟩ := reportMotion_spec hx
      refine ⟨by simp [hlen], ?_, ?_, ?_, ?_⟩
      · intro i m' hm'
        cases i with
        | zero =>
          simp only [List.getElem?_cons_zero, Option.some.injEq] at hm'
          subst hm'
          exact ⟨x, by simp, hx⟩
        | succ i =>
          simp only [List.getElem?_cons_succ] at hm'
          simpa using hget i m' hm'
      · simp [List.countP_cons, hs, h1]
      · simp [List.countP_cons, he, h2]
      · simp [List.countP_cons, hgv, h3]
    · exact absurd h (by simp)

theorem reportMotions_total {nn ms : List (Motion σ)}
    (h : ∀ m ∈ ms, ∀ p : Nat, m.parent = some p → p < nn.length) :
    ∃ items : List (DataItem σ), reportMotions nn ms = some items := by
  induction ms with
  | nil => exact ⟨[], rfl⟩
  | cons m ms ih =>
    obtain ⟨xs, hxs⟩ := ih (fun m' hm' => h m' (List.mem_cons_of_mem _ hm'))
    have hx : ∃ x, reportMotion nn m = some x := by
      unfold reportMotion
      cases hp : m.parent with
      | none => exact ⟨_, rfl⟩
      | some p =>
        have hlt := h m (List.mem_cons_self _ _) p hp
        simp [List.getElem?_eq_getElem hlt]
    obtain ⟨x, hx⟩ := hx
    exact ⟨x :: xs, by simp [reportMotions, hx, hxs]⟩

theorem getPlannerData_goal {nn : List (Motion σ)} (hf : Forest nn)
    (lastGoal : Option Nat) (hl : ∀ g : Nat, lastGoal = some g → g < nn.length)
    (sampler : Bool) :
    ∃ items rest : List (DataItem σ),
      getPlannerData { nn := nn, lastGoalMotion := lastGoal, sampler := sampler } =
        some (items, { nn := nn, lastGoalMotion := lastGoal, sampler := sampler }) ∧
      (∀ x ∈ rest, isGoalVertex x = false) ∧
      ((lastGoal = none ∧ items = rest) ∨
       (∃ (g : Nat) (m : Motion σ), lastGoal = some g ∧ nn[g]? = some m ∧
          items = .goalVertex m.state :: rest)) := by
  have hpar : ∀ m ∈ nn, ∀ p : Nat, m.parent = some p → p < nn.length := by
    intro m hm p hp
    obtain ⟨i, hi⟩ := List.mem_iff_getElem?.mp hm
    have := hf i m p hi hp
    have := lt_length_of_getElem? hi
    omega
  obtain ⟨rest, hrest⟩ := reportMotions_total hpar
  obtain ⟨_, _, _, _, hgv⟩ := reportMotions_spec hrest
  have hno : ∀ x ∈ rest, isGoalVertex x = false := by
    intro x hx
    have := List.countP_eq_zero.mp hgv x hx
    simpa using this
  cases lastGoal with
  | none =>
    refine ⟨rest, rest, ?_, hno, Or.inl ⟨rfl, rfl⟩⟩
    simp [getPlannerData, hrest]
  | some g =>
    have hg := hl g rfl
    refine ⟨.goalVertex nn[g].state :: rest, rest, ?_, hno,
      Or.inr ⟨g, nn[g], rfl, List.getElem?_eq_getElem hg, rfl⟩⟩
    simp [getPlannerData, hrest, List.getElem?_eq_getElem hg]

/-- C11: after `solve` on a planner that was just cleared, `getPlannerData` reports a
goal vertex exactly when `solve` returned `solved = true`, and the configuration of a
reported goal vertex is the last configuration of the registered path. -/
theorem getPlannerData_goal_iff_solved [LinearOrder D] (env : Env σ D) (hn : NearestOk env)
    (P : Planner σ) (starts : List σ) (ticks : List (Tick σ D)) :
    ∃ out : Outcome σ D, solve env (clear P) starts ticks = some out ∧
      ∃ items : List (DataItem σ),
        getPlannerData out.planner = some (items, out.planner) ∧
        ((∃ s : σ, DataItem.goalVertex s ∈ items) ↔
          ∃ a : Bool, out.status = .result true a) ∧
        ∀ s : σ, DataItem.goalVertex s ∈ items →
          ∃ sp : SolutionPath σ D, out.registered = some sp ∧
            sp.path.getLast? = some s := by
  have hF : Forest (clear P).nn := forest_nil
  have hmem : ∀ (rest : List (DataItem σ)) (s : σ),
      (∀ x ∈ rest, isGoalVertex x = false) → DataItem.goalVertex s ∈ rest → False := by
    intro rest s hno hs
    have := hno _ hs
    simp [isGoalVertex] at this
  by_cases hne : seedStarts starts (clear P).nn = []
  · refine ⟨_, solve_invalid env (clear P) starts ticks hne, ?_⟩
    obtain ⟨items, rest, h1, hno, hcase⟩ :=
      getPlannerData_goal (forest_nil : Forest ([] : List (Motion σ))) none
        (by intro g hg; exact absurd hg (by simp)) false
    rcases hcase with ⟨_, hitems⟩ | ⟨g, _, hg, _⟩
    · subst hitems
      refine ⟨items, h1, ?_, ?_⟩
      · constructor
        · rintro ⟨s, hs⟩
          exact (hmem items s hno hs).elim
        · rintro ⟨a, ha⟩
          simp at ha
      · intro s hs
        exact (hmem items s hno hs).elim
    · exact absurd hg (by simp)
  · obtain ⟨st, _, hg, hf, hcase⟩ := solve_run hn hF starts ticks hne
    have solved : ∀ (g : Nat) (mp : List (Motion σ)) (approx : Bool),
        g < st.nn.length → mpath st.nn st.nn.length (some g) = some mp →
        ∃ items : List (DataItem σ),
          getPlannerData { nn := st.nn, lastGoalMotion := some g, sampler := true } =
            some (items, { nn := st.nn, lastGoalMotion := some g, sampler := true }) ∧
          ((∃ s : σ, DataItem.goalVertex s ∈ items) ↔
            ∃ a : Bool, PlannerStatus.result true approx = .result true a) ∧
          ∀ s : σ, DataItem.goalVertex s ∈ items →
            (pathStates mp).getLast? = some s := by
      intro g mp approx hgl hmp
      obtain ⟨items, rest, h1, hno, hcase⟩ :=
        getPlannerData_goal hf (some g)
          (by intro g' hg'; simp only [Option.some.injEq] at hg'; omega) true
      rcases hcase with ⟨h0, _⟩ | ⟨g', m, hg', hm, hitems⟩
      · exact absurd h0 (by simp)
      · simp only [Option.some.injEq] at hg'
        subst hg' hitems
        obtain ⟨m', rest', hmp', hm', _⟩ := mpath_spec hmp
        rw [hm] at hm'
        simp only [Option.some.injEq] at hm'
        subst hm' hmp'
        refine ⟨_, h1, ⟨fun _ => ⟨approx, rfl⟩, fun _ => ⟨m.state, by simp⟩⟩, ?_⟩
        intro s hs
        rcases List.mem_cons.mp hs with heq | hin
        · simp only [DataItem.goalVertex.injEq] at heq
          rw [heq]
          exact pathStates_getLast? _ _
        · exact (hmem rest s hno hin).elim
    rcases hcase with ⟨_, _, hsolve⟩ | ⟨hs, j, mp, hap, hmp, hsolve⟩ |
      ⟨hfd, g, mp, hsol, hmp, hsolve⟩
    · refine ⟨_, hsolve, ?_⟩
      obtain ⟨items, rest, h1, hno, hcase⟩ :=
        getPlannerData_goal hf (clear P).lastGoalMotion
          (by intro g hg; exact absurd hg (by simp [clear])) true
      rcases hcase with ⟨_, hitems⟩ | ⟨g, _, hg, _⟩
      · subst hitems
        refine ⟨items, h1, ?_, ?_⟩
        · constructor
          · rintro ⟨s, hs⟩
            exact (hmem items s hno hs).elim
          · rintro ⟨a, ha⟩
            simp at ha
        · intro s hs
          exact (hmem items s hno hs).elim
      · exact absurd hg (by simp [clear])
    · refine ⟨_, hsolve, ?_⟩
      have hj : j < st.nn.length := (mpath_spec hmp).elim fun m h =>
        h.elim fun _ h' => lt_length_of_getElem? h'.2.1
      obtain ⟨items, h1, h2, h3⟩ := solved j mp true hj hmp
      exact ⟨items, h1, h2, fun s hs => ⟨_, rfl, h3 s hs⟩⟩
    · refine ⟨_, hsolve, ?_⟩
      have hj : g < st.nn.length := (mpath_spec hmp).elim fun m h =>
        h.elim fun _ h' => lt_length_of_getElem? h'.2.1
      obtain ⟨items, h1, h2, h3⟩ := solved g mp false hj hmp
      exact ⟨items, h1, h2, fun s hs => ⟨_, rfl, h3 s hs⟩⟩

theorem getPlannerData_goal_iff_solved_witness :
    NearestOk envW ∧
    (solve envW (clear usedPlanner) [0] ticksApprox).bind
        (fun o => (getPlannerData o.planner).map (fun r => (o.status, o.registered, r.1))) =
      some (.result true true,
        some { path := [0, 3, 8], approximate := true, difference := .fin 2 },
        [.goalVertex 8, .startVertex 0, .edge 0 3, .edge 3 8, .edge 8 2, .edge 2 12]) ∧
    ∃ out : Outcome Nat Nat, solve envW (clear usedPlanner) [0] ticksApprox = some out ∧
      ∃ items : List (DataItem Nat),
        getPlannerData out.planner = some (items, out.planner) ∧
        ((∃ s : Nat, DataItem.goalVertex s ∈ items) ↔
          ∃ a : Bool, out.status = .result true a) ∧
        ∀ s : Nat, DataItem.goalVertex s ∈ items →
          ∃ sp : SolutionPath Nat Nat, out.registered = some sp ∧
            sp.path.getLast? = some s :=
  ⟨nearestOk_envW, by decide,
    getPlannerData_goal_iff_solved envW nearestOk_envW usedPlanner [0] ticksApprox⟩

/-- C12: for every planner state, after `clear` the tree holds no Motion and
`lastGoalMotion_` is null, and `getPlannerData` called right then reports nothing: no
start vertex, no edge, no goal vertex. -/
theorem clear_empties (P : Planner σ) :
    (clear P).nn = [] ∧ (clear P).lastGoalMotion = none ∧
    getPlannerData (clear P) = some ([], clear P) := by
  refine ⟨rfl, rfl, rfl⟩

theorem iterate_keeps [LinearOrder D] {env : Env σ D} {t : Tick σ D}
    {st st' : LoopState σ D} {b : Bool} (h : iterate env t st = some (st', b))
    {i : Nat} {m : Motion σ} (hm : st.nn[i]? = some m) : st'.nn[i]? = some m := by
  obtain ⟨nm, _, hcase⟩ := iterate_cases h
  rcases hcase with ⟨_, _, rfl⟩ | ⟨_, hnn, _⟩
  · exact hm
  · rw [hnn]
    exact getElem?_concat_of_some hm

theorem seedStarts_keeps (starts : List σ) {nn : List (Motion σ)} {i : Nat} {m : Motion σ}
    (hm : nn[i]? = some m) : (seedStarts starts nn)[i]? = some m := by
  rw [seedStarts_eq, List.getElem?_append_left (lt_length_of_getElem? hm)]
  exact hm

theorem grown_keeps {env : Env σ D} {base : List (Motion σ)} {st : LoopState σ D}
    (hg : Grown env base st) {i : Nat} {m : Motion σ} (hm : base[i]? = some m) :
    st.nn[i]? = some m := by
  rw [grown_old hg (lt_length_of_getElem? hm)]
  exact hm

/-- C13: `solve` only appends to the tree. A Motion in the tree before the seed phase is
at the same place with the same configuration and parent after it; the same holds across
every loop iteration; and every Motion the planner held when `solve` was called is
unchanged in the tree `solve` leaves. -/
theorem solve_append_only [LinearOrder D] (env : Env σ D) (hn : NearestOk env)
    (P : Planner σ) (hP : Forest P.nn) (starts : List σ) (ticks : List (Tick σ D)) :
    (∀ (i : Nat) (m : Motion σ), P.nn[i]? = some m →
      (seedStarts starts P.nn)[i]? = some m) ∧
    (∀ (t : Tick σ D) (st st' : LoopState σ D) (b : Bool),
      iterate env t st = some (st', b) →
      ∀ (i : Nat) (m : Motion σ), st.nn[i]? = some m → st'.nn[i]? = some m) ∧
    (∃ out : Outcome σ D, solve env P starts ticks = some out ∧
      (∀ (i : Nat) (m : Motion σ), P.nn[i]? = some m → out.planner.nn[i]? = some m) ∧
      (∀ (i : Nat) (m : Motion σ), (seedStarts starts P.nn)[i]? = some m →
        out.planner.nn[i]? = some m)) := by
  refine ⟨fun i m hm => seedStarts_keeps starts hm,
    fun t st st' b h i m hm => iterate_keeps h hm, ?_⟩
  by_cases hne : seedStarts starts P.nn = []
  · refine ⟨_, solve_invalid env P starts ticks hne, ?_, ?_⟩
    · intro i m hm
      have := seedStarts_keeps starts hm
      rw [hne] at this
      simp at this
    · intro i m hm
      rw [hne] at hm
      simp at hm
  · obtain ⟨st, _, hg, _, hcase⟩ := solve_run hn hP starts ticks hne
    have h1 : ∀ (i : Nat) (m : Motion σ), (seedStarts starts P.nn)[i]? = some m →
        st.nn[i]? = some m := fun i m hm => grown_keeps hg hm
    have h0 : ∀ (i : Nat) (m : Motion σ), P.nn[i]? = some m → st.nn[i]? = some m :=
      fun i m hm => h1 i m (seedStarts_keeps starts hm)
    rcases hcase with ⟨_, _, hsolve⟩ | ⟨_, _, _, _, _, hsolve⟩ | ⟨_, _, _, _, _, hsolve⟩
    · exact ⟨_, hsolve, h0, h1⟩
    · exact ⟨_, hsolve, h0, h1⟩
    · exact ⟨_, hsolve, h0, h1⟩

theorem forest_usedPlanner : Forest usedPlanner.nn := by
  intro i m p hm hp
  unfold usedPlanner at hm
  rcases i with _ | _ | i
  · simp at hm; subst hm; simp at hp
  · simp at hm; subst hm; simp at hp; omega
  · simp at hm

theorem solve_append_only_witness :
    NearestOk envW ∧ Forest usedPlanner.nn ∧
    (solve envW usedPlanner [5] ticksApprox).map (fun o => o.planner.nn) =
      some [⟨0, none⟩, ⟨3, some 0⟩, ⟨5, none⟩, ⟨3, some 2⟩, ⟨8, some 3⟩, ⟨2, some 4⟩,
            ⟨12, some 5⟩] ∧
    ∃ out : Outcome Nat Nat, solve envW usedPlanner [5] ticksApprox = some out ∧
      (∀ (i : Nat) (m : Motion Nat), usedPlanner.nn[i]? = some m →
        out.planner.nn[i]? = some m) ∧
      (∀ (i : Nat) (m : Motion Nat), (seedStarts [5] usedPlanner.nn)[i]? = some m →
        out.planner.nn[i]? = some m) :=
  ⟨nearestOk_envW, forest_usedPlanner, by decide,
    (solve_append_only envW nearestOk_envW usedPlanner forest_usedPlanner [5] ticksApprox).2.2⟩

/-- C15: a loop iteration returns. When its edge check succeeds the tree grows by exactly
one Motion, whose configuration is the sampled configuration and whose parent is the
Motion the nearest-neighbour query returned for it. When the edge check fails the tree
and the tracker (`approxsol`, `approxdif`, and `solution`) are as before and the loop
goes on. -/
theorem iterate_edge_cases [LinearOrder D] (env : Env σ D) (hn : NearestOk env)
    (t : Tick σ D) (st : LoopState σ D) (hne : st.nn ≠ []) :
    ∃ (st' : LoopState σ D) (b : Bool) (nm : Motion σ),
      iterate env t st = some (st', b) ∧
      st.nn[env.nearest st.nn (sample env t).1]? = some nm ∧
      (env.checkMotion nm.state (sample env t).1 = true →
        st'.nn = st.nn ++ [{ state := (sample env t).1,
                             parent := some (env.nearest st.nn (sample env t).1) }]) ∧
      (env.checkMotion nm.state (sample env t).1 = false →
        st'.nn = st.nn ∧ st'.approxsol = st.approxsol ∧ st'.approxdif = st.approxdif ∧
        st'.solution = st.solution ∧ b = false) := by
  obtain ⟨st', b, hit, _⟩ := iterate_total hn t st hne
  obtain ⟨nm, hnm, hcase⟩ := iterate_cases hit
  refine ⟨st', b, nm, hit, hnm, ?_, ?_⟩
  · intro hc
    rcases hcase with ⟨hc', _⟩ | ⟨_, hnn, _⟩
    · rw [hc] at hc'
      exact absurd hc' (by simp)
    · exact hnn
  · intro hc
    rcases hcase with ⟨_, hb, rfl⟩ | ⟨hc', _⟩
    · exact ⟨rfl, rfl, rfl, rfl, hb⟩
    · rw [hc] at hc'
      exact absurd hc' (by simp)

theorem iterate_edge_cases_witness :
    NearestOk envW ∧ stC.nn ≠ [] ∧
    (iterate envW (tickW 50 40) stC).map (fun r => r.1.nn) =
      some [⟨0, none⟩, ⟨9, some 0⟩, ⟨40, some 1⟩] ∧
    (iterate envW (tickW 50 7) stC).map (fun r => (r.1.nn, r.1.approxsol, r.1.approxdif)) =
      some (stC.nn, stC.approxsol, stC.approxdif) ∧
    ∃ (st' : LoopState Nat Nat) (b : Bool) (nm : Motion Nat),
      iterate envW (tickW 50 40) stC = some (st', b) ∧
      stC.nn[envW.nearest stC.nn (sample envW (tickW 50 40)).1]? = some nm ∧
      (envW.checkMotion nm.state (sample envW (tickW 50 40)).1 = true →
        st'.nn = stC.nn ++ [{ state := (sample envW (tickW 50 40)).1,
                              parent := some (envW.nearest stC.nn
                                (sample envW (tickW 50 40)).1) }]) ∧
      (envW.checkMotion nm.state (sample envW (tickW 50 40)).1 = false →
        st'.nn = stC.nn ∧ st'.approxsol = stC.approxsol ∧ st'.approxdif = stC.approxdif ∧
        st'.solution = stC.solution ∧ b = false) :=
  ⟨nearestOk_envW, by decide, by decide, by decide,
    iterate_edge_cases envW nearestOk_envW (tickW 50 40) stC (by decide)⟩

/-- C16: in a loop iteration the sample is the goal sample, and `sampleGoal` is called,
exactly when the goal is a sampleable region, the draw is strictly below the goal bias
and the region reports it can be sampled; otherwise the sample is the uniform sample and
`sampleUniform` is called. So a region that cannot be sampled is never sampled, and when
the bias is not above the draw (a bias of 0 with a draw from [0,1)) the sample is
uniform. -/
theorem sample_goal_iff [LinearOrder D] (env : Env σ D) (t : Tick σ D) :
    ((env.goalSampleable = true ∧ t.uniform01 < env.goalBias ∧ t.canSample = true) →
      (sample env t).1 = t.sampleGoal ∧
      Event.sampleGoal t.sampleGoal ∈ (sample env t).2 ∧
      ∀ s : σ, Event.sampleUniform s ∉ (sample env t).2) ∧
    (¬ (env.goalSampleable = true ∧ t.uniform01 < env.goalBias ∧ t.canSample = true) →
      (sample env t).1 = t.sampleUniform ∧
      Event.sampleUniform t.sampleUniform ∈ (sample env t).2 ∧
      ∀ s : σ, Event.sampleGoal s ∉ (sample env t).2) ∧
    ((∃ s : σ, Event.sampleGoal s ∈ (sample env t).2) ↔
      (env.goalSampleable = true ∧ t.uniform01 < env.goalBias ∧ t.canSample = true)) ∧
    (t.canSample = false → ∀ s : σ, Event.sampleGoal s ∉ (sample env t).2) ∧
    (env.goalBias ≤ t.uniform01 →
      (sample env t).1 = t.sampleUniform ∧ ∀ s : σ, Event.sampleGoal s ∉ (sample env t).2) := by
  unfold sample
  by_cases hg : env.goalSampleable = true
  · by_cases hu : t.uniform01 < env.goalBias
    · by_cases hc : t.canSample = true
      · simp [hg, hu, hc]
      · simp [hg, hu, hc]
    · simp [hg, hu]
  · simp [hg]

theorem sample_goal_iff_witness :
    (sample envW (tickW 1 4)).1 = 10 ∧ (sample envW (tickW 50 4)).1 = 4 ∧
    ((envW.goalSampleable = true ∧ (tickW 1 4).uniform01 < envW.goalBias ∧
        (tickW 1 4).canSample = true) →
      (sample envW (tickW 1 4)).1 = (tickW 1 4).sampleGoal ∧
      Event.sampleGoal (tickW 1 4).sampleGoal ∈ (sample envW (tickW 1 4)).2 ∧
      ∀ s : Nat, Event.sampleUniform s ∉ (sample envW (tickW 1 4)).2) :=
  ⟨by decide, by decide, (sample_goal_iff envW (tickW 1 4)).1⟩

theorem sample_counts [LinearOrder D] (env : Env σ D) (t : Tick σ D) :
    (sample env t).2.countP isDraw = (if env.goalSampleable = true then 1 else 0) ∧
    (sample env t).2.countP isIteration = 0 := by
  unfold sample
  by_cases hg : env.goalSampleable = true
  · by_cases hu : t.uniform01 < env.goalBias
    · by_cases hc : t.canSample = true
      · simp [hg, hu, hc, isDraw, isIteration]
      · simp [hg, hu, hc, isDraw, isIteration]
    · simp [hg, hu, isDraw, isIteration]
  · simp [hg, isDraw, isIteration]

theorem iterate_counts [LinearOrder D] {env : Env σ D} {t : Tick σ D}
    {st st' : LoopState σ D} {b : Bool} (h : iterate env t st = some (st', b)) :
    st'.trace.countP isDraw =
      st.trace.countP isDraw + (if env.goalSampleable = true then 1 else 0) ∧
    st'.trace.countP isIteration = st.trace.countP isIteration := by
  obtain ⟨hd, hi⟩ := sample_counts env t
  obtain ⟨nm, _, hcase⟩ := iterate_cases h
  rcases hcase with ⟨_, _, rfl⟩ | ⟨_, _, htr, _⟩
  · simp [List.countP_append, hd, hi, isDraw, isIteration]
  · rw [htr]
    simp [List.countP_append, List.countP_cons, hd, hi, isDraw, isIteration]

theorem growLoop_counts [LinearOrder D] {env : Env σ D} (ticks : List (Tick σ D))
    {st st' : LoopState σ D} (h : growLoop env ticks st = some st') :
    ∃ k : Nat, st'.trace.countP isIteration = st.trace.countP isIteration + k ∧
      st'.trace.countP isDraw =
        st.trace.countP isDraw + (if env.goalSampleable = true then k else 0) := by
  induction ticks generalizing st with
  | nil =>
    simp only [growLoop, Option.some.injEq] at h
    subst h
    exact ⟨0, by simp [List.countP_append, isIteration], by simp [List.countP_append, isDraw]⟩
  | cons t ts ih =>
    simp only [growLoop] at h
    split at h
    · exact absurd h (by simp)
    · rename_i st1 hit
      simp only [Option.some.injEq] at h
      subst h
      obtain ⟨hd, hi⟩ := iterate_counts hit
      refine ⟨1, ?_, ?_⟩
      · rw [hi]; simp [List.countP_append, isIteration]
      · rw [hd]; simp [List.countP_append, isDraw]
    · rename_i st1 hit
      obtain ⟨hd, hi⟩ := iterate_counts hit
      obtain ⟨k, hk1, hk2⟩ := ih h
      refine ⟨k + 1, ?_, ?_⟩
      · rw [hk1, hi]; simp [List.countP_append, isIteration]; omega
      · rw [hk2, hd]
        by_cases hg : env.goalSampleable = true
        · simp [hg, List.countP_append, isDraw]; omega
        · simp [hg, List.countP_append, isDraw]

theorem solve_trace [LinearOrder D] {env : Env σ D} (hn : NearestOk env) {P : Planner σ}
    (hP : Forest P.nn) (starts : List σ) (ticks : List (Tick σ D))
    (hne : seedStarts starts P.nn ≠ []) :
    ∃ (st : LoopState σ D) (out : Outcome σ D),
      growLoop env ticks (initLoop (seedStarts starts P.nn)) = some st ∧
      solve env P starts ticks = some out ∧ out.trace = st.trace ∧
      out.planner.nn = st.nn ∧ out.status ≠ .INVALID_START := by
  obtain ⟨st, hloop, _, _, hcase⟩ := solve_run hn hP starts ticks hne
  rcases hcase with ⟨_, _, hsolve⟩ | ⟨_, _, _, _, _, hsolve⟩ | ⟨_, _, _, _, _, hsolve⟩
  · exact ⟨st, _, hloop, hsolve, rfl, rfl, by simp⟩
  · exact ⟨st, _, hloop, hsolve, rfl, rfl, by simp⟩
  · exact ⟨st, _, hloop, hsolve, rfl, rfl, by simp⟩

/-- C17 fails as stated: with a goal that is not a sampleable region (`goal_s` null) a
run of two loop iterations takes no goal-bias draw. -/
theorem no_draw_without_sampleable_goal :
    envC.goalSampleable = false ∧
    (solve envC emptyPlanner [0] [tickW 50 9, tickW 50 7]).map
        (fun o => (o.trace.countP isIteration, o.trace.countP isDraw)) = some (2, 0) ∧
    ¬ ∀ out : Outcome Nat Nat,
        solve envC emptyPlanner [0] [tickW 50 9, tickW 50 7] = some out →
        out.trace.countP isDraw = out.trace.countP isIteration := by
  refine ⟨rfl, by decide, ?_⟩
  intro h
  have hrun : (solve envC emptyPlanner [0] [tickW 50 9, tickW 50 7]).map
      (fun o => (o.trace.countP isIteration, o.trace.countP isDraw)) = some (2, 0) := by
    decide
  cases hs : solve envC emptyPlanner [0] [tickW 50 9, tickW 50 7] with
  | none => rw [hs] at hrun; simp at hrun
  | some out =>
    have := h out hs
    rw [hs] at hrun
    simp only [Option.map_some', Option.some.injEq, Prod.mk.injEq] at hrun
    omega

/-- C17 as amended: when the goal is a sampleable region (`goal_s` non-null) every loop
iteration takes exactly one goal-bias draw, so the number of draws of a run equals the
number of loop iterations; when the goal is not a sampleable region no draw is taken. -/
theorem draws_per_iteration [LinearOrder D] (env : Env σ D) (hn : NearestOk env)
    (P : Planner σ) (hP : Forest P.nn) (starts : List σ) (ticks : List (Tick σ D)) :
    ∃ out : Outcome σ D, solve env P starts ticks = some out ∧
      (env.goalSampleable = true →
        out.trace.countP isDraw = out.trace.countP isIteration) ∧
      (env.goalSampleable = false → out.trace.countP isDraw = 0) := by
  by_cases hne : seedStarts starts P.nn = []
  · refine ⟨_, solve_invalid env P starts ticks hne, ?_, ?_⟩ <;> intro _ <;> rfl
  · obtain ⟨st, out, hloop, hsolve, htr, _⟩ := solve_trace hn hP starts ticks hne
    obtain ⟨k, hk1, hk2⟩ := growLoop_counts ticks hloop
    refine ⟨out, hsolve, ?_, ?_⟩
    · intro hg
      rw [htr, hk1, hk2]
      simp [hg, initLoop]
    · intro hg
      rw [htr, hk2]
      simp [hg, initLoop]

theorem draws_per_iteration_witness :
    NearestOk envW ∧ Forest emptyPlanner.nn ∧ envW.goalSampleable = true ∧
    (solve envW emptyPlanner [0] ticksApprox).map
        (fun o => (o.trace.countP isIteration, o.trace.countP isDraw)) = some (5, 5) ∧
    ∃ out : Outcome Nat Nat, solve envW emptyPlanner [0] ticksApprox = some out ∧
      (envW.goalSampleable = true →
        out.trace.countP isDraw = out.trace.countP isIteration) ∧
      (envW.goalSampleable = false → out.trace.countP isDraw = 0) :=
  ⟨nearestOk_envW, forest_nil, rfl, by decide,
    draws_per_iteration envW nearestOk_envW emptyPlanner forest_nil [0] ticksApprox⟩

theorem growLoop_break [LinearOrder D] {env : Env σ D} (ticks : List (Tick σ D))
    {st st' : LoopState σ D} (h : growLoop env ticks st = some st')
    (h0 : st.solution = none) {g : Nat} (hg : st'.solution = some g) :
    ∃ mg : Motion σ, st'.nn[g]? = some mg ∧
      st'.trace.getLast? = some (.isSatisfied mg.state true (goalDist env mg.state)) := by
  induction ticks generalizing st with
  | nil =>
    simp only [growLoop, Option.some.injEq] at h
    subst h
    rw [h0] at hg
    exact absurd hg (by simp)
  | cons t ts ih =>
    simp only [growLoop] at h
    split at h
    · exact absurd h (by simp)
    · rename_i st1 hit
      simp only [Option.some.injEq] at h
      subst h
      obtain ⟨nm, _, hcase⟩ := iterate_cases hit
      rcases hcase with ⟨_, hb, _⟩ | ⟨_, hnn, htr, hcase⟩
      · exact absurd hb (by simp)
      · rcases hcase with ⟨hsat, _, hsol, _⟩ | ⟨_, hb, _⟩ | ⟨_, hb, _⟩
        · rw [hsol] at hg
          simp only [Option.some.injEq] at hg
          subst hg
          refine ⟨⟨(sample env t).1, some (env.nearest st.nn (sample env t).1)⟩, ?_, ?_⟩
          · rw [hnn]
            exact List.getElem?_concat_length _ _
          · rw [htr, hsat, List.getLast?_append]
            rfl
        · exact absurd hb (by simp)
        · exact absurd hb (by simp)
    · rename_i st1 hit
      have hsol1 : st1.solution = none := by
        obtain ⟨nm, _, hcase⟩ := iterate_cases hit
        rcases hcase with ⟨_, _, rfl⟩ | ⟨_, _, _, hcase⟩
        · exact h0
        · rcases hcase with ⟨_, hb, _⟩ | ⟨_, _, _, hsol, _⟩ | ⟨_, _, _, hsol, _⟩
          · exact absurd hb (by simp)
          · rw [hsol]; exact h0
          · rw [hsol]; exact h0
      exact ih h hsol1

/-- C14: a run that returns an exact solution stopped in the iteration that inserted the
goal-satisfying Motion: that Motion is the last one in the tree, no other inserted Motion
satisfies the goal, and its goal test is the last collaborator call of the run, so no
sample and no edge check follows it. The loop is left in two ways only: by this `break`,
or by `ptc` answering true at the top of an iteration; with `INVALID_START` it is never
entered. -/
theorem loop_stops_on_exact [LinearOrder D] (env : Env σ D) (hn : NearestOk env)
    (P : Planner σ) (hP : Forest P.nn) (starts : List σ) (ticks : List (Tick σ D)) :
    ∃ out : Outcome σ D, solve env P starts ticks = some out ∧
      (out.status = .result true false →
        ∃ (g : Nat) (mg : Motion σ), out.planner.lastGoalMotion = some g ∧
          out.planner.nn[g]? = some mg ∧ out.planner.nn.length = g + 1 ∧
          P.nn.length + starts.length ≤ g ∧ goalSat env mg.state = true ∧
          (∀ (i : Nat) (m : Motion σ), P.nn.length + starts.length ≤ i →
            out.planner.nn[i]? = some m → goalSat env m.state = true → i = g) ∧
          out.trace.getLast? =
            some (.isSatisfied mg.state true (goalDist env mg.state))) ∧
      ((out.status = .INVALID_START ∧ out.trace = []) ∨
       (out.status = .result true false ∧
          ∃ (s : σ) (d : ExtDist D), out.trace.getLast? = some (.isSatisfied s true d)) ∨
       ((∃ s : Bool, out.status = .result s true) ∧
          out.trace.getLast? = some (.ptc true))) := by
  by_cases hne : seedStarts starts P.nn = []
  · refine ⟨_, solve_invalid env P starts ticks hne, ?_, Or.inl ⟨rfl, rfl⟩⟩
    intro h
    simp at h
  · obtain ⟨st, hloop, hg, _, hcase⟩ := solve_run hn hP starts ticks hne
    have hbase := seedStarts_length starts P.nn
    have hptc : st.solution = none → st.trace.getLast? = some (.ptc true) := by
      intro hnone
      rcases growLoop_exit ticks hloop with ⟨_, h2⟩ | ⟨g, _, _, h1, _⟩
      · exact h2
      · rw [hnone] at h1
        exact absurd h1 (by simp)
    rcases hcase with ⟨hs, _, hsolve⟩ | ⟨hs, _, _, _, _, hsolve⟩ |
      ⟨hfd, g, mp, hsol, _, hsolve⟩
    · refine ⟨_, hsolve, ?_, Or.inr (Or.inr ⟨⟨false, rfl⟩, hptc hs.noSol⟩)⟩
      intro h
      simp at h
    · refine ⟨_, hsolve, ?_, Or.inr (Or.inr ⟨⟨true, rfl⟩, hptc hs.noSol⟩)⟩
      intro h
      simp at h
    · obtain ⟨mg, hmg, htr⟩ := growLoop_break ticks hloop rfl hsol
      obtain ⟨g', mg', hsol', hbg, hmg', hlen, hsat, _⟩ := hfd.sol
      rw [hsol] at hsol'
      simp only [Option.some.injEq] at hsol'
      subst hsol'
      rw [hmg] at hmg'
      simp only [Option.some.injEq] at hmg'
      subst hmg'
      refine ⟨_, hsolve, ?_, Or.inr (Or.inl ⟨rfl, mg.state, goalDist env mg.state, htr⟩)⟩
      intro _
      refine ⟨g, mg, rfl, hmg, hlen, by omega, hsat, ?_, htr⟩
      intro i m hi hm hsatm
      by_contra hig
      have hlt := lt_length_of_getElem? hm
      simp only at hlt
      have := hfd.unsat i m (by omega) (by omega) hm
      rw [this] at hsatm
      exact absurd hsatm (by simp)

theorem loop_stops_on_exact_witness :
    NearestOk envW ∧ Forest emptyPlanner.nn ∧
    (solve envW emptyPlanner [0] ticksExact).map
        (fun o => (o.status, o.planner.nn.length, o.trace.getLast?)) =
      some (.result true false, 5, some (.isSatisfied 10 true (.fin 0))) ∧
    ∃ out : Outcome Nat Nat, solve envW emptyPlanner [0] ticksExact = some out ∧
      out.status = .result true false ∧
      ∃ (g : Nat) (mg : Motion Nat), out.planner.lastGoalMotion = some g ∧
        out.planner.nn[g]? = some mg ∧ out.planner.nn.length = g + 1 ∧
        0 + 1 ≤ g ∧ goalSat envW mg.state = true ∧
        (∀ (i : Nat) (m : Motion Nat), 0 + 1 ≤ i →
          out.planner.nn[i]? = some m → goalSat envW m.state = true → i = g) ∧
        out.trace.getLast? =
          some (.isSatisfied mg.state true (goalDist envW mg.state)) := by
  refine ⟨nearestOk_envW, forest_nil, by decide, ?_⟩
  obtain ⟨out, hout, h, _⟩ :=
    loop_stops_on_exact envW nearestOk_envW emptyPlanner forest_nil [0] ticksExact
  have hrun : (solve envW emptyPlanner [0] ticksExact).map (fun o => o.status) =
      some (.result true false) := by decide
  rw [hout] at hrun
  simp only [Option.map_some', Option.some.injEq] at hrun
  exact ⟨out, hout, hrun, h hrun⟩

theorem not_isSatisfied_mem_sample [LinearOrder D] (env : Env σ D) (t : Tick σ D)
    (s : σ) (sat : Bool) (d : ExtDist D) : Event.isSatisfied s sat d ∉ (sample env t).2 := by
  unfold sample
  split
  · split
    · split <;> simp
    · simp
  · simp

theorem iterate_goalTested [LinearOrder D] {env : Env σ D} {t : Tick σ D}
    (st : LoopState σ D) {st' : LoopState σ D} {b : Bool} {n0 : Nat}
    (hn0 : n0 ≤ st.nn.length)
    (hgt : GoalTested n0 st) (h : iterate env t st = some (st', b)) :
    GoalTested n0 st' ∧ n0 ≤ st'.nn.length := by
  have hns := not_isSatisfied_mem_sample env t
  obtain ⟨nm, _, hcase⟩ := iterate_cases h
  rcases hcase with ⟨_, _, rfl⟩ | ⟨_, hnn, htr, _⟩
  · refine ⟨?_, hn0⟩
    intro s sat d hmem
    simp only [List.mem_append, List.mem_singleton, List.mem_cons] at hmem
    rcases hmem with ((hmem | hmem) | hmem) | hmem
    · exact hgt s sat d hmem
    · exact absurd hmem (hns s sat d)
    · simp at hmem
    · simp at hmem
  · refine ⟨?_, by rw [hnn]; simp; omega⟩
    intro s sat d hmem
    rw [htr] at hmem
    simp only [List.mem_append, List.mem_singleton, List.mem_cons] at hmem
    rcases hmem with ((hmem | hmem) | hmem) | hmem
    · obtain ⟨i, m, hi, hm, hs⟩ := hgt s sat d hmem
      exact ⟨i, m, hi, by rw [hnn]; exact getElem?_concat_of_some hm, hs⟩
    · exact absurd hmem (hns s sat d)
    · simp at hmem
    · rcases hmem with hmem | hmem | hmem
      · simp at hmem
      · simp only [Event.isSatisfied.injEq] at hmem
        refine ⟨st.nn.length, ⟨(sample env t).1, some (env.nearest st.nn (sample env t).1)⟩,
          hn0, ?_, hmem.1.symm⟩
        rw [hnn]
        exact List.getElem?_concat_length _ _
      · simp at hmem

theorem growLoop_goalTested [LinearOrder D] {env : Env σ D} (ticks : List (Tick σ D))
    {st st' : LoopState σ D} {n0 : Nat} (hn0 : n0 ≤ st.nn.length)
    (hgt : GoalTested n0 st) (h : growLoop env ticks st = some st') :
    GoalTested n0 st' := by
  have hpoll : ∀ (s : LoopState σ D) (b : Bool), GoalTested n0 s →
      GoalTested n0 { s with trace := s.trace ++ [.ptc b] } := by
    intro s b hs x sat d hmem
    simp only [List.mem_append, List.mem_singleton] at hmem
    rcases hmem with hmem | hmem
    · exact hs x sat d hmem
    · simp at hmem
  induction ticks generalizing st with
  | nil =>
    simp only [growLoop, Option.some.injEq] at h
    subst h
    exact hpoll st true hgt
  | cons t ts ih =>
    simp only [growLoop] at h
    split at h
    · exact absurd h (by simp)
    · rename_i st1 hit
      simp only [Option.some.injEq] at h
      subst h
      exact (iterate_goalTested { st with trace := st.trace ++ [.ptc false] } hn0
        (hpoll st false hgt) hit).1
    · rename_i st1 hit
      obtain ⟨h1, h2⟩ := iterate_goalTested { st with trace := st.trace ++ [.ptc false] } hn0
        (hpoll st false hgt) hit
      exact ih h2 h1 h

theorem mpath_length_of_parent {nn : List (Motion σ)} {fuel g p : Nat} {mg : Motion σ}
    {mp : List (Motion σ)} (hmp : mpath nn fuel (some g) = some mp)
    (hmg : nn[g]? = some mg) (hp : mg.parent = some p) : 2 ≤ mp.length := by
  cases fuel with
  | zero => simp [mpath] at hmp
  | succ fuel =>
    simp only [mpath, hmg, hp] at hmp
    split at hmp
    · exact absurd hmp (by simp)
    · rename_i rest hrest
      simp only [Option.some.injEq] at hmp
      subst hmp
      obtain ⟨m', rest', hr, _⟩ := mpath_spec hrest
      subst hr
      simp

/-- C18: in a run of `solve` on an empty tree every goal test is made on the
configuration of a Motion inserted by the loop, which has a parent; a registered path
has at least two configurations and ends at a Motion with a parent; and when the loop
inserts no Motion, as when `ptc` is true at the first poll, `solve` does not return
`solved = true` and registers no path, whatever the goal test says of the starts. -/
theorem root_never_solution [LinearOrder D] (env : Env σ D) (hn : NearestOk env)
    (P : Planner σ) (hP : P.nn = []) (starts : List σ) (ticks : List (Tick σ D)) :
    ∃ out : Outcome σ D, solve env P starts ticks = some out ∧
      (∀ (s : σ) (sat : Bool) (d : ExtDist D), Event.isSatisfied s sat d ∈ out.trace →
        ∃ (i : Nat) (m : Motion σ) (p : Nat), starts.length ≤ i ∧
          out.planner.nn[i]? = some m ∧ m.state = s ∧ m.parent = some p) ∧
      (∀ sp : SolutionPath σ D, out.registered = some sp →
        2 ≤ sp.path.length ∧
        ∃ (g : Nat) (mg : Motion σ) (p : Nat), out.planner.lastGoalMotion = some g ∧
          out.planner.nn[g]? = some mg ∧ mg.parent = some p ∧
          sp.path.getLast? = some mg.state) ∧
      (out.planner.nn.length = starts.length →
        out.registered = none ∧ ∀ a : Bool, out.status ≠ .result true a) ∧
      (ticks = [] → out.registered = none ∧ ∀ a : Bool, out.status ≠ .result true a) := by
  have hF : Forest P.nn := by rw [hP]; exact forest_nil
  by_cases hne : seedStarts starts P.nn = []
  · refine ⟨_, solve_invalid env P starts ticks hne, ?_, ?_, ?_, ?_⟩
    · intro s sat d hmem
      simp at hmem
    · intro sp hsp
      simp at hsp
    · intro _
      exact ⟨rfl, fun a => by simp⟩
    · intro _
      exact ⟨rfl, fun a => by simp⟩
  · obtain ⟨st, hloop, hg, _, hcase⟩ := solve_run hn hF starts ticks hne
    have hbase : (seedStarts starts P.nn).length = starts.length := by
      rw [seedStarts_length, hP]; simp
    have hgt : GoalTested (seedStarts starts P.nn).length st :=
      growLoop_goalTested ticks (le_refl _) (by intro s sat d hmem; simp [initLoop] at hmem)
        hloop
    have htests : ∀ (s : σ) (sat : Bool) (d : ExtDist D), Event.isSatisfied s sat d ∈ st.trace →
        ∃ (i : Nat) (m : Motion σ) (p : Nat), starts.length ≤ i ∧
          st.nn[i]? = some m ∧ m.state = s ∧ m.parent = some p := by
      intro s sat d hmem
      obtain ⟨i, m, hi, hm, hs⟩ := hgt s sat d hmem
      obtain ⟨p, _, hp, _⟩ := hg.edges i m hi hm
      exact ⟨i, m, p, by omega, hm, hs, hp⟩
    have hpath : ∀ (g : Nat) (mp : List (Motion σ)),
        (seedStarts starts P.nn).length ≤ g →
        mpath st.nn st.nn.length (some g) = some mp →
        2 ≤ (pathStates mp).length ∧
        ∃ (mg : Motion σ) (p : Nat), st.nn[g]? = some mg ∧ mg.parent = some p ∧
          (pathStates mp).getLast? = some mg.state := by
      intro g mp hbg hmp
      obtain ⟨mg, rest, hmp', hmg, _⟩ := mpath_spec hmp
      obtain ⟨p, _, hp, _⟩ := hg.edges g mg hbg hmg
      have hlen := mpath_length_of_parent hmp hmg hp
      subst hmp'
      exact ⟨by simpa [pathStates] using hlen, mg, p, hmg, hp, pathStates_getLast? _ _⟩
    have hempty : ticks = [] → st.nn.length = starts.length := by
      intro ht
      subst ht
      simp only [growLoop, Option.some.injEq] at hloop
      subst hloop
      simpa [initLoop] using hbase
    rcases hcase with ⟨_, _, hsolve⟩ | ⟨hs, j, mp, hap, hmp, hsolve⟩ |
      ⟨hfd, g, mp, hsol, hmp, hsolve⟩
    · refine ⟨_, hsolve, htests, ?_, ?_, ?_⟩
      · intro sp hsp
        simp at hsp
      · intro _
        exact ⟨rfl, fun a => by simp⟩
      · intro _
        exact ⟨rfl, fun a => by simp⟩
    · have hbj : (seedStarts starts P.nn).length ≤ j ∧ j < st.nn.length := by
        obtain ⟨mj, _, h2, h3, _⟩ := searching_best hs hap
        exact ⟨h2, lt_length_of_getElem? h3⟩
      obtain ⟨hlen, mg, p, hmg, hp, hlast⟩ := hpath j mp hbj.1 hmp
      refine ⟨_, hsolve, htests, ?_, ?_, ?_⟩
      · intro sp hsp
        simp only [Option.some.injEq] at hsp
        subst hsp
        exact ⟨hlen, j, mg, p, rfl, hmg, hp, hlast⟩
      · intro hl
        simp only at hl
        omega
      · intro ht
        have := hempty ht
        omega
    · obtain ⟨g', mg', hsol', hbg, hmg', _⟩ := hfd.sol
      rw [hsol] at hsol'
      simp only [Option.some.injEq] at hsol'
      subst hsol'
      have hgl := lt_length_of_getElem? hmg'
      obtain ⟨hlen, mg, p, hmg, hp, hlast⟩ := hpath g mp hbg hmp
      refine ⟨_, hsolve, htests, ?_, ?_, ?_⟩
      · intro sp hsp
        simp only [Option.some.injEq] at hsp
        subst hsp
        exact ⟨hlen, g, mg, p, rfl, hmg, hp, hlast⟩
      · intro hl
        simp only at hl
        omega
      · intro ht
        have := hempty ht
        omega

theorem root_never_solution_witness :
    NearestOk envW ∧ emptyPlanner.nn = [] ∧ goalSat envW 10 = true ∧
    (solve envW emptyPlanner [10] []).map (fun o => (o.status, o.registered)) =
      some (.result false true, none) ∧
    (∃ out : Outcome Nat Nat, solve envW emptyPlanner [10] [] = some out ∧
      out.registered = none ∧ ∀ a : Bool, out.status ≠ .result true a) ∧
    (∃ out : Outcome Nat Nat, solve envW emptyPlanner [0] ticksExact = some out ∧
      out.registered = some { path := [0, 3, 8, 2, 10], approximate := false,
                              difference := .fin 0 } ∧
      ∀ sp : SolutionPath Nat Nat, out.registered = some sp →
        2 ≤ sp.path.length ∧
        ∃ (g : Nat) (mg : Motion Nat) (p : Nat), out.planner.lastGoalMotion = some g ∧
          out.planner.nn[g]? = some mg ∧ mg.parent = some p ∧
          sp.path.getLast? = some mg.state) := by
  refine ⟨nearestOk_envW, rfl, by decide, by decide, ?_, ?_⟩
  · obtain ⟨out, hout, _, _, _, h4⟩ :=
      root_never_solution envW nearestOk_envW emptyPlanner rfl [10] []
    exact ⟨out, hout, h4 rfl⟩
  · obtain ⟨out, hout, _, h2, _⟩ :=
      root_never_solution envW nearestOk_envW emptyPlanner rfl [0] ticksExact
    have hrun : (solve envW emptyPlanner [0] ticksExact).map (fun o => o.registered) =
        some (some { path := [0, 3, 8, 2, 10], approximate := false,
                     difference := .fin 0 }) := by decide
    rw [hout] at hrun
    simp only [Option.map_some', Option.some.injEq] at hrun
    exact ⟨out, hout, hrun, h2⟩

/-- C19: a run of `solve` that passes the seed phase returns a pair `{solved, approximate}`;
when `solved` is false `approximate` is true, and `approximate` is false exactly when a
Motion inserted by the loop satisfies the goal test. -/
theorem approximate_flag [LinearOrder D] (env : Env σ D) (hn : NearestOk env)
    (P : Planner σ) (hP : Forest P.nn) (starts : List σ) (ticks : List (Tick σ D))
    (hne : seedStarts starts P.nn ≠ []) :
    ∃ (out : Outcome σ D) (s a : Bool), solve env P starts ticks = some out ∧
      out.status = .result s a ∧
      (s = false → a = true) ∧
      (a = false ↔
        ∃ (i : Nat) (m : Motion σ), P.nn.length + starts.length ≤ i ∧
          out.planner.nn[i]? = some m ∧ goalSat env m.state = true) := by
  obtain ⟨st, _, _, _, hcase⟩ := solve_run hn hP starts ticks hne
  have hbase := seedStarts_length starts P.nn
  rcases hcase with ⟨hs, _, hsolve⟩ | ⟨hs, _, _, _, _, hsolve⟩ | ⟨hfd, _, _, _, _, hsolve⟩
  · refine ⟨_, false, true, hsolve, rfl, fun _ => rfl, ?_⟩
    constructor
    · intro h
      exact absurd h (by simp)
    · rintro ⟨i, m, hi, hm, hsat⟩
      rw [hs.unsat i m (by omega) hm] at hsat
      exact absurd hsat (by simp)
  · refine ⟨_, true, true, hsolve, rfl, fun _ => rfl, ?_⟩
    constructor
    · intro h
      exact absurd h (by simp)
    · rintro ⟨i, m, hi, hm, hsat⟩
      rw [hs.unsat i m (by omega) hm] at hsat
      exact absurd hsat (by simp)
  · refine ⟨_, true, false, hsolve, rfl, fun h => absurd h (by simp), ?_⟩
    constructor
    · intro _
      obtain ⟨g, mg, _, hbg, hmg, _, hsat, _⟩ := hfd.sol
      exact ⟨g, mg, by omega, hmg, hsat⟩
    · intro _
      rfl

theorem approximate_flag_witness :
    NearestOk envBlocked ∧ Forest emptyPlanner.nn ∧
    seedStarts [0] emptyPlanner.nn ≠ [] ∧
    (solve envBlocked emptyPlanner [0] ticksApprox).map (fun o => o.status) =
      some (.result false true) ∧
    ∃ (out : Outcome Nat Nat) (s a : Bool),
      solve envBlocked emptyPlanner [0] ticksApprox = some out ∧
      out.status = .result s a ∧
      (s = false → a = true) ∧
      (a = false ↔
        ∃ (i : Nat) (m : Motion Nat), 0 + 1 ≤ i ∧
          out.planner.nn[i]? = some m ∧ goalSat envBlocked m.state = true) :=
  ⟨nearestOk_envW, forest_nil, by decide, by decide,
    approximate_flag envBlocked nearestOk_envW emptyPlanner forest_nil [0] ticksApprox
      (by decide)⟩

theorem forest_afterFirst : Forest afterFirst.nn := by
  intro i m p hm hp
  unfold afterFirst at hm
  rcases i with _ | _ | _ | _ | _ | i <;> simp at hm <;> subst hm <;> simp at hp <;> omega

/-- C20: `solve` returns `INVALID_START` exactly when the tree is empty after the seed
phase. Called with no start configuration on a planner whose tree still holds Motions,
it does not return `INVALID_START`: it runs the loop on the tree as it is, and the tree
it leaves extends that tree. -/
theorem invalid_start_iff_empty [LinearOrder D] (env : Env σ D) (hn : NearestOk env)
    (P : Planner σ) (hP : Forest P.nn) (starts : List σ) (ticks : List (Tick σ D)) :
    ∃ out : Outcome σ D, solve env P starts ticks = some out ∧
      (out.status = .INVALID_START ↔ seedStarts starts P.nn = []) ∧
      (P.nn ≠ [] → starts = [] →
        out.status ≠ .INVALID_START ∧
        ∃ st : LoopState σ D, growLoop env ticks (initLoop P.nn) = some st ∧
          out.planner.nn = st.nn ∧ out.trace = st.trace ∧
          out.trace.head? = some (.ptc ticks.isEmpty) ∧
          ∃ added : List (Motion σ), out.planner.nn = P.nn ++ added) := by
  by_cases hne : seedStarts starts P.nn = []
  · refine ⟨_, solve_invalid env P starts ticks hne, ?_, ?_⟩
    · exact ⟨fun _ => hne, fun _ => rfl⟩
    · intro hnn hs
      subst hs
      exact absurd hne hnn
  · obtain ⟨st, out, hloop, hsolve, htr, hnn, hst⟩ := solve_trace hn hP starts ticks hne
    refine ⟨out, hsolve, ⟨fun h => absurd h hst, fun h => absurd h hne⟩, ?_⟩
    intro _ hs
    subst hs
    obtain ⟨hg, _⟩ := growLoop_spec ticks (grown_init env (seedStarts [] P.nn))
      (searching_init env (seedStarts [] P.nn)) hloop
    obtain ⟨added, hadd⟩ := hg.ext
    refine ⟨hst, st, hloop, hnn, htr, ?_, added, by rw [hnn, hadd]; rfl⟩
    rw [htr]
    cases ticks with
    | nil =>
      simp only [growLoop, Option.some.injEq] at hloop
      subst hloop
      simp [initLoop]
    | cons t ts =>
      have hhead : ∀ (ts : List (Tick σ D)) (s s' : LoopState σ D) (e : Event σ D),
          s.trace.head? = some e → growLoop env ts s = some s' →
          s'.trace.head? = some e := by
        intro ts
        induction ts with
        | nil =>
          intro s s' e he hl
          simp only [growLoop, Option.some.injEq] at hl
          subst hl
          cases hs : s.trace with
          | nil => rw [hs] at he; simp at he
          | cons x xs => rw [hs] at he; simpa using he
        | cons t' ts' ih =>
          intro s s' e he hl
          have hstep : ∀ (s1 : LoopState σ D) (b : Bool),
              iterate env t' { s with trace := s.trace ++ [.ptc false] } = some (s1, b) →
              s1.trace.head? = some e := by
            intro s1 b hit
            obtain ⟨nm, _, hcase⟩ := iterate_cases hit
            cases hs : s.trace with
            | nil => rw [hs] at he; simp at he
            | cons x xs =>
              rw [hs] at he
              simp only [List.head?_cons, Option.some.injEq] at he
              subst he
              rcases hcase with ⟨_, _, rfl⟩ | ⟨_, _, htr1, _⟩
              · simp [hs]
              · rw [htr1]
                simp [hs]
          simp only [growLoop] at hl
          split at hl
          · exact absurd hl (by simp)
          · rename_i s1 hit
            simp only [Option.some.injEq] at hl
            subst hl
            exact hstep _ _ hit
          · rename_i s1 hit
            exact ih s1 s' e (hstep _ _ hit) hl
      simp only [growLoop] at hloop
      have hdec : (t :: ts).isEmpty = false := rfl
      rw [hdec]
      split at hloop
      · exact absurd hloop (by simp)
      · rename_i s1 hit
        simp only [Option.some.injEq] at hloop
        subst hloop
        obtain ⟨nm, _, hcase⟩ := iterate_cases hit
        rcases hcase with ⟨_, _, rfl⟩ | ⟨_, _, htr1, _⟩
        · simp [initLoop]
        · rw [htr1]
          simp [initLoop]
      · rename_i s1 hit
        refine hhead ts s1 st _ ?_ hloop
        obtain ⟨nm, _, hcase⟩ := iterate_cases hit
        rcases hcase with ⟨_, _, rfl⟩ | ⟨_, _, htr1, _⟩
        · simp [initLoop]
        · rw [htr1]
          simp [initLoop]

theorem invalid_start_iff_empty_witness :
    NearestOk envW ∧ Forest afterFirst.nn ∧ afterFirst.nn ≠ [] ∧
    (solve envW emptyPlanner [0] ticksApprox).map (fun o => o.planner) = some afterFirst ∧
    (solve envW afterFirst [] ticksExact).map (fun o => (o.status, o.planner.nn)) =
      some (.result true false,
        [⟨0, none⟩, ⟨3, some 0⟩, ⟨8, some 1⟩, ⟨2, some 2⟩, ⟨12, some 3⟩, ⟨3, some 4⟩,
         ⟨8, some 5⟩, ⟨2, some 6⟩, ⟨10, some 7⟩]) ∧
    ∃ out : Outcome Nat Nat, solve envW afterFirst [] ticksExact = some out ∧
      out.status ≠ .INVALID_START ∧
      ∃ st : LoopState Nat Nat, growLoop envW ticksExact (initLoop afterFirst.nn) = some st ∧
        out.planner.nn = st.nn ∧ out.trace = st.trace ∧
        out.trace.head? = some (.ptc ticksExact.isEmpty) ∧
        ∃ added : List (Motion Nat), out.planner.nn = afterFirst.nn ++ added := by
  refine ⟨nearestOk_envW, forest_afterFirst, by decide, by decide, by decide, ?_⟩
  obtain ⟨out, hout, _, h⟩ :=
    invalid_start_iff_empty envW nearestOk_envW afterFirst forest_afterFirst [] ticksExact
  exact ⟨out, hout, h (by decide) rfl⟩

end RTP
